import Mathlib

/-!
Verification of `src/excel_processor.py` (class `ExcelProcessor`).

The file shallowly embeds the parts of the program that the checked
properties talk about: the cell-value model, the two aggregation reducers
`combine_text_values` and `sum_numeric_values`, the group-by/aggregate step,
the threshold bucketizer of `process_overdue_payment`, the contract-column
row filter, the column resolution step, the "启宏实业" customer rewrite,
the table-end scan `_find_table_end`, and the state-level behaviour of
`process_overdue_payment`.

Modelling conventions:
* a cell is `Val`: a string, a number (an exact rational stands in for the
  Python float; all stated numeric identities are exact), or `blank`
  (pandas `NaN` / missing);
* pandas operations that can raise are modelled in `Except Unit`;
* the Python dictionaries `tables` / `processed_tables` / ... are
  association lists.
-/

/-- A spreadsheet cell value as pandas holds it after `read_excel`:
a string, a number (rational stands in for the Python float), or a
missing value (`NaN`, shown as `blank`). -/
inductive Val where
  | str (s : String)
  | num (q : ℚ)
  | blank
deriving DecidableEq

/-- Python `str(val)`: identity on strings, decimal rendering for a number,
and `"nan"` for a missing value (which is what `astype(str)` produces). -/
def valToStr : Val → String
  | .str s => s
  | .num q => toString q
  | .blank => "nan"

/-- pandas `.fillna('').astype(str)` applied to one cell: a missing value
becomes the empty string, anything else is rendered with `str`. -/
def fillnaStr : Val → String
  | .blank => ""
  | v => valToStr v

/-- Python `str.strip()`: leading and trailing whitespace removed.
(Defined structurally on the character list so that concrete inputs
evaluate inside the kernel.) -/
def pyStrip (s : String) : String :=
  String.mk (((s.data.dropWhile Char.isWhitespace).reverse.dropWhile Char.isWhitespace).reverse)

/-- The filter used inside `combine_text_values`
(`not pd.isna(val) and str(val).strip() != ''`). -/
def keepText (v : Val) : Bool :=
  decide (v ≠ Val.blank) && decide (pyStrip (valToStr v) ≠ "")

/-- First-occurrence deduplication of a list of strings.  This models
iterating the Python `set(...)` built in `combine_text_values`: the set
holds exactly the distinct values, but CPython iterates it in a
hash-dependent, implementation-defined order; we fix first-insertion order
as the canonical representative.  Every property proved about the output
order-independently (membership, no duplicates, no empty segments) is a
property of the real set as well. -/
def pyDedup : List String → List String
  | [] => []
  | a :: as => a :: (pyDedup as).filter (fun b => decide (b ≠ a))

/-- `combine_text_values` (src/excel_processor.py, lines 377-380): collect
`str(val)` for the non-blank entries of the series, deduplicate via a
Python set, and join with `'/'` (empty result for an empty set).  Note the
collected values are *not* trimmed: `strip()` is applied only in the
filter test. -/
def combine_text_values (series : List Val) : String :=
  String.intercalate "/" (pyDedup ((series.filter keepText).map valToStr))

/-- The text reducer as the specification words it (§4.5): distinct
non-blank *trimmed* values in first-seen order, joined with `"/"`.
Defined only to compare the code's reducer against the claim. -/
def combine_text_values_spec (series : List Val) : String :=
  String.intercalate "/"
    (pyDedup ((series.filter keepText).map (fun v => pyStrip (valToStr v))))

/-- Python `+` as pandas applies it while reducing an object-dtype series:
two numbers add, two strings concatenate, and any mixed pair raises
`TypeError` (modelled as `Except.error`).  `blank` operands cannot occur
because the reduction skips `NaN` first. -/
def pyAdd : Val → Val → Except Unit Val
  | .num a, .num b => .ok (.num (a + b))
  | .str a, .str b => .ok (.str (a ++ b))
  | _, _ => .error ()

/-- `sum_numeric_values` (src/excel_processor.py, lines 382-384): a bare
`series.sum()`.  On an object-dtype pandas series this skips `NaN`
entries, returns `0` for an empty (or all-`NaN`) series, and otherwise
reduces the remaining values with Python `+` — so non-numeric strings are
*not* coerced to `0`. -/
def sum_numeric_values (series : List Val) : Except Unit Val :=
  match series.filter (fun v => decide (v ≠ Val.blank)) with
  | [] => .ok (.num 0)
  | v :: vs => vs.foldlM pyAdd v

/-- The numeric content of a cell: its value for a number, `0` otherwise
(used to state sums over a column the way pandas' `skipna` sum reads a
numeric column). -/
def valNum : Val → ℚ
  | .num q => q
  | _ => 0

/-- Sum of a list of cells, counting every non-number as `0` (pandas
`Series.sum()` on a numeric-dtype column with `NaN` holes). -/
def nansum (l : List Val) : ℚ := (l.map valNum).sum

/-- `true` iff the cell is a number or missing — i.e. contains no string.
The amount column of an aggregated table has this shape after the
`pd.to_numeric(..., errors='coerce')` pass. -/
def numOrBlank : Val → Bool
  | .str _ => false
  | _ => true

-- ### helper lemmas about the reducers

theorem mem_pyDedup {x : String} : ∀ {l : List String}, x ∈ pyDedup l ↔ x ∈ l := by
  intro l
  induction l with
  | nil => simp [pyDedup]
  | cons a as ih =>
    rw [pyDedup]
    simp only [List.mem_cons, List.mem_filter, decide_eq_true_eq, ih]
    constructor
    · rintro (rfl | ⟨h, _⟩)
      · exact .inl rfl
      · exact .inr h
    · rintro (rfl | h)
      · exact .inl rfl
      · by_cases hx : x = a
        · exact .inl hx
        · exact .inr ⟨h, hx⟩

theorem nodup_pyDedup : ∀ (l : List String), (pyDedup l).Nodup := by
  intro l
  induction l with
  | nil => simp [pyDedup]
  | cons a as ih =>
    rw [pyDedup]
    refine List.nodup_cons.mpr ⟨?_, List.Nodup.filter _ ih⟩
    intro hmem
    simp only [List.mem_filter, decide_eq_true_eq] at hmem
    exact hmem.2 rfl

theorem foldlM_pyAdd_num :
    ∀ (l : List Val) (a : ℚ), (∀ v ∈ l, ∃ q, v = Val.num q) →
      l.foldlM pyAdd (Val.num a) = .ok (.num (a + (l.map valNum).sum)) := by
  intro l
  induction l with
  | nil =>
    intro a _
    show Except.ok (Val.num a) = _
    simp
  | cons v vs ih =>
    intro a h
    obtain ⟨q, rfl⟩ := h v (List.mem_cons_self _ _)
    have hvs : ∀ w ∈ vs, ∃ q, w = Val.num q := fun w hw => h w (List.mem_cons_of_mem _ hw)
    have step : List.foldlM pyAdd (Val.num a) (Val.num q :: vs)
        = List.foldlM pyAdd (Val.num (a + q)) vs := rfl
    rw [List.foldlM] at step ⊢
    rw [step, ih (a + q) hvs]
    simp [valNum, add_assoc]

theorem nansum_filter_ne_blank (l : List Val) :
    nansum (l.filter (fun v => decide (v ≠ Val.blank))) = nansum l := by
  induction l with
  | nil => rfl
  | cons v vs ih =>
    cases v <;> simpa [nansum, List.filter_cons, valNum] using ih

-- ### Claim C4: the text reducer

/-- Claim C4, counterexample: the claim says the reducer joins the group's
distinct non-blank *trimmed* values; the code joins the values untrimmed
(`strip()` appears only in the filter).  On the one-element group
`[" a"]` — where the set order is irrelevant — the code returns `" a"`
while the claimed behaviour returns `"a"`. -/
theorem combine_text_values_untrimmed_cex :
    combine_text_values [Val.str " a"] = " a" ∧
    combine_text_values_spec [Val.str " a"] = "a" ∧
    combine_text_values [Val.str " a"] ≠ combine_text_values_spec [Val.str " a"] := by
  refine ⟨rfl, rfl, ?_⟩
  decide

/-- Claim C4 (amended): for every group, the reduced text value is the
join, with the single delimiter `"/"`, of the group's distinct non-blank
values kept *untrimmed*, in an implementation-defined set order: the list
of joined values has no duplicates, every joined value is non-blank (in
particular non-empty, so there are no empty segments), the joined values
are exactly the `str(...)` forms of the group's non-blank entries, and the
result is the empty string when the group has no non-blank values. -/
theorem combine_text_values_props (series : List Val) :
    (pyDedup ((series.filter keepText).map valToStr)).Nodup ∧
    (∀ x ∈ pyDedup ((series.filter keepText).map valToStr), pyStrip x ≠ "" ∧ x ≠ "") ∧
    (∀ x, x ∈ pyDedup ((series.filter keepText).map valToStr) ↔
        x ∈ (series.filter keepText).map valToStr) ∧
    (series.filter keepText = [] → combine_text_values series = "") := by
  refine ⟨nodup_pyDedup _, ?_, fun x => mem_pyDedup, ?_⟩
  · intro x hx
    have hx' := mem_pyDedup.mp hx
    simp only [List.mem_map, List.mem_filter] at hx'
    obtain ⟨v, ⟨_, hkeep⟩, rfl⟩ := hx'
    simp only [keepText, Bool.and_eq_true, decide_eq_true_eq] at hkeep
    refine ⟨hkeep.2, ?_⟩
    intro hempty
    rw [hempty] at hkeep
    exact hkeep.2 rfl
  · intro hnil
    simp only [combine_text_values, hnil, List.map_nil]
    rfl

/-- Witness for `combine_text_values_props` at concrete inputs. -/
theorem combine_text_values_props_wit :
    (pyDedup (([Val.str "a", Val.str "b", Val.str "a"].filter keepText).map valToStr)).Nodup ∧
    combine_text_values [Val.blank] = "" :=
  ⟨(combine_text_values_props [Val.str "a", Val.str "b", Val.str "a"]).1,
    (combine_text_values_props [Val.blank]).2.2.2 rfl⟩

-- ### Claim C5: the numeric reducer

/-- Claim C5, counterexample: the claim says every non-numeric value is
coerced to 0 and a coercion failure never raises; in fact `series.sum()`
reduces a one-string group to that string (not 0) and raises a
`TypeError` on a group mixing a string with a number. -/
theorem sum_numeric_values_not_coerced_cex :
    sum_numeric_values [Val.str "x"] = .ok (.str "x") ∧
    (Except.ok (Val.str "x") : Except Unit Val) ≠ .ok (.num 0) ∧
    sum_numeric_values [Val.str "x", Val.num 1] = .error () := by
  refine ⟨rfl, ?_, rfl⟩
  simp

/-- Claim C5 (amended): on a group whose values are numbers and blanks —
the shape every numeric column has after `pd.to_numeric(...,
errors='coerce')`, and the shape the claim's "blank coerced to 0" language
presumes — the reducer returns the arithmetic sum with blanks contributing
0 and never errors.  (Non-numeric strings, by contrast, are not coerced:
see the counterexample.) -/
theorem sum_numeric_values_num (series : List Val)
    (h : ∀ v ∈ series, numOrBlank v = true) :
    sum_numeric_values series = .ok (.num (nansum series)) := by
  unfold sum_numeric_values
  cases hf : series.filter (fun v => decide (v ≠ Val.blank)) with
  | nil =>
    have : nansum series = 0 := by
      rw [← nansum_filter_ne_blank, hf]; rfl
    rw [this]
  | cons v vs =>
    have hmem : ∀ w ∈ v :: vs, w ∈ series ∧ w ≠ Val.blank := by
      intro w hw
      rw [← hf] at hw
      simpa [decide_eq_true_eq] using List.mem_filter.mp hw
    have hnum : ∀ w ∈ v :: vs, ∃ q, w = Val.num q := by
      intro w hw
      obtain ⟨hws, hwb⟩ := hmem w hw
      have := h w hws
      cases w with
      | num q => exact ⟨q, rfl⟩
      | str s => simp [numOrBlank] at this
      | blank => exact absurd rfl hwb
    obtain ⟨q, rfl⟩ := hnum v (List.mem_cons_self _ _)
    show List.foldlM pyAdd (Val.num q) vs = _
    rw [foldlM_pyAdd_num vs q (fun w hw => hnum w (List.mem_cons_of_mem _ hw))]
    have : nansum series = q + (vs.map valNum).sum := by
      rw [← nansum_filter_ne_blank series, hf]
      simp [nansum, valNum]
    rw [this]

/-- Witness for `sum_numeric_values_num` at a concrete group. -/
theorem sum_numeric_values_num_wit :
    (∀ v ∈ [Val.num 1, Val.blank, Val.num 2], numOrBlank v = true) ∧
    sum_numeric_values [Val.num 1, Val.blank, Val.num 2]
      = .ok (.num (nansum [Val.num 1, Val.blank, Val.num 2])) :=
  ⟨by decide, sum_numeric_values_num _ (by decide)⟩

-- ### the simplified overdue-payment table and its aggregation

/-- One row of `df_simplified` in `process_overdue_payment`: the ten
columns of `columns_to_keep` (src lines 363-374), with the source column
labels as field names. -/
structure SimpRow where
  «板群» : Val
  «经营单位» : Val
  «客户» : Val
  «产品» : Val
  «金额/万元» : Val
  «控货类业务逾期金额» : Val
  «授信类业务逾期金额» : Val
  «本周还款计划» : Val
  «集团在手(万元)» : Val
  «集团占用(万元)» : Val
deriving DecidableEq

/-- Injection of a cell value into a lexicographically ordered type.
This realises the total order pandas' sorted `groupby` uses on group
keys: numbers compare by value and strings lexicographically by Unicode
code point (Python string comparison).  The
blank < number < string completion across kinds is a modelling choice
(blank keys are dropped before sorting, and pandas raises on a
string/float comparison, so only homogeneous key columns occur). -/
def valOrdKey : Val → ℕ ×ₗ ℚ ×ₗ List ℕ
  | .blank => toLex (0, toLex (0, []))
  | .num q => toLex (1, toLex (q, []))
  | .str s => toLex (2, toLex (0, s.data.map Char.toNat))

/-- The three-level dimension key 板群 × 经营单位 × 客户. -/
abbrev Key3 := Val × Val × Val

/-- The two-level (outer-dimension) key 板群 × 经营单位. -/
abbrev Key2 := Val × Val

def key3Ord (k : Key3) : (ℕ ×ₗ ℚ ×ₗ List ℕ) ×ₗ (ℕ ×ₗ ℚ ×ₗ List ℕ) ×ₗ (ℕ ×ₗ ℚ ×ₗ List ℕ) :=
  toLex (valOrdKey k.1, toLex (valOrdKey k.2.1, valOrdKey k.2.2))

def key2Ord (k : Key2) : (ℕ ×ₗ ℚ ×ₗ List ℕ) ×ₗ (ℕ ×ₗ ℚ ×ₗ List ℕ) :=
  toLex (valOrdKey k.1, valOrdKey k.2)

/-- Lexicographic comparison of three-level keys (the sort order of
`groupby(['板群', '经营单位', '客户'], sort=True)`). -/
def key3Le (a b : Key3) : Prop := key3Ord a ≤ key3Ord b

/-- Lexicographic comparison of two-level keys. -/
def key2Le (a b : Key2) : Prop := key2Ord a ≤ key2Ord b

instance : DecidableRel key3Le := fun a b =>
  inferInstanceAs (Decidable (key3Ord a ≤ key3Ord b))

instance : DecidableRel key2Le := fun a b =>
  inferInstanceAs (Decidable (key2Ord a ≤ key2Ord b))

section SortedKeys

variable {κ : Type} [DecidableEq κ] (le : κ → κ → Prop) [DecidableRel le]

/-- Insert a key into a `le`-sorted list, keeping it sorted. -/
def insSorted (k : κ) : List κ → List κ
  | [] => [k]
  | a :: as => if le k a then k :: a :: as else a :: insSorted k as

/-- Insert a key unless already present. -/
def insKey (ks : List κ) (k : κ) : List κ :=
  if k ∈ ks then ks else insSorted le k ks

/-- The distinct keys of a list, in ascending `le` order.  Models the
sorted group-key index a pandas `groupby(..., sort=True)` produces. -/
def sortedKeys (keys : List κ) : List κ := keys.foldl (insKey le) []

theorem mem_insSorted {x k : κ} : ∀ {l : List κ}, x ∈ insSorted le k l ↔ x = k ∨ x ∈ l := by
  intro l
  induction l with
  | nil => simp [insSorted]
  | cons a as ih =>
    rw [insSorted]
    by_cases h : le k a
    · simp [h]
    · simp only [if_neg h, List.mem_cons, ih]
      tauto

theorem nodup_insSorted {k : κ} :
    ∀ {l : List κ}, k ∉ l → l.Nodup → (insSorted le k l).Nodup := by
  intro l
  induction l with
  | nil => intro _ _; simp [insSorted]
  | cons a as ih =>
    intro hk hn
    rw [insSorted]
    rcases List.nodup_cons.mp hn with ⟨ha, has⟩
    by_cases h : le k a
    · rw [if_pos h]
      exact List.nodup_cons.mpr ⟨hk, hn⟩
    · rw [if_neg h]
      refine List.nodup_cons.mpr ⟨?_, ih (fun hm => hk (List.mem_cons_of_mem _ hm)) has⟩
      intro hmem
      rcases (mem_insSorted le).mp hmem with rfl | hmem'
      · exact hk (List.mem_cons_self _ _)
      · exact ha hmem'

theorem pairwise_insSorted (htot : ∀ a b, le a b ∨ le b a) (htr : Transitive le) {k : κ} :
    ∀ {l : List κ}, l.Pairwise le → (insSorted le k l).Pairwise le := by
  intro l
  induction l with
  | nil => intro _; simp [insSorted]
  | cons a as ih =>
    intro hp
    rcases List.pairwise_cons.mp hp with ⟨ha, has⟩
    rw [insSorted]
    by_cases h : le k a
    · rw [if_pos h]
      refine List.pairwise_cons.mpr ⟨?_, hp⟩
      intro b hb
      rcases List.mem_cons.mp hb with rfl | hb'
      · exact h
      · exact htr h (ha b hb')
    · rw [if_neg h]
      have hak : le a k := (htot k a).resolve_left h
      refine List.pairwise_cons.mpr ⟨?_, ih has⟩
      intro b hb
      rcases (mem_insSorted le).mp hb with rfl | hb'
      · exact hak
      · exact ha b hb'

theorem mem_insKey {x : κ} {ks : List κ} {k : κ} :
    x ∈ insKey le ks k ↔ x = k ∨ x ∈ ks := by
  rw [insKey]
  by_cases h : k ∈ ks
  · rw [if_pos h]
    constructor
    · exact .inr
    · rintro (rfl | hx)
      · exact h
      · exact hx
  · rw [if_neg h]
    exact mem_insSorted le

theorem nodup_insKey {ks : List κ} {k : κ} (hn : ks.Nodup) : (insKey le ks k).Nodup := by
  rw [insKey]
  by_cases h : k ∈ ks
  · rwa [if_pos h]
  · rw [if_neg h]
    exact nodup_insSorted le h hn

theorem pairwise_insKey (htot : ∀ a b, le a b ∨ le b a) (htr : Transitive le)
    {ks : List κ} {k : κ} (hp : ks.Pairwise le) : (insKey le ks k).Pairwise le := by
  rw [insKey]
  by_cases h : k ∈ ks
  · rwa [if_pos h]
  · rw [if_neg h]
    exact pairwise_insSorted le htot htr hp

theorem mem_foldl_insKey {x : κ} :
    ∀ (keys : List κ) (acc : List κ),
      (x ∈ keys.foldl (insKey le) acc ↔ x ∈ acc ∨ x ∈ keys) := by
  intro keys
  induction keys with
  | nil => intro acc; simp
  | cons k ks ih =>
    intro acc
    rw [List.foldl_cons, ih, mem_insKey le]
    simp only [List.mem_cons]
    tauto

theorem nodup_foldl_insKey :
    ∀ (keys : List κ) (acc : List κ), acc.Nodup → (keys.foldl (insKey le) acc).Nodup := by
  intro keys
  induction keys with
  | nil => intro acc h; exact h
  | cons k ks ih =>
    intro acc h
    exact ih _ (nodup_insKey le h)

theorem pairwise_foldl_insKey (htot : ∀ a b, le a b ∨ le b a) (htr : Transitive le) :
    ∀ (keys : List κ) (acc : List κ), acc.Pairwise le →
      (keys.foldl (insKey le) acc).Pairwise le := by
  intro keys
  induction keys with
  | nil => intro acc h; exact h
  | cons k ks ih =>
    intro acc h
    exact ih _ (pairwise_insKey le htot htr h)

theorem mem_sortedKeys {x : κ} {keys : List κ} : x ∈ sortedKeys le keys ↔ x ∈ keys := by
  rw [sortedKeys, mem_foldl_insKey le]
  simp

theorem nodup_sortedKeys (keys : List κ) : (sortedKeys le keys).Nodup :=
  nodup_foldl_insKey le keys [] List.nodup_nil

theorem pairwise_sortedKeys (htot : ∀ a b, le a b ∨ le b a) (htr : Transitive le)
    (keys : List κ) : (sortedKeys le keys).Pairwise le :=
  pairwise_foldl_insKey le htot htr keys [] List.Pairwise.nil

end SortedKeys

theorem key3Le_total : ∀ a b : Key3, key3Le a b ∨ key3Le b a := fun a b =>
  le_total (key3Ord a) (key3Ord b)

theorem key3Le_trans : Transitive key3Le := fun _ _ _ h1 h2 => le_trans h1 h2

theorem key2Le_total : ∀ a b : Key2, key2Le a b ∨ key2Le b a := fun a b =>
  le_total (key2Ord a) (key2Ord b)

theorem key2Le_trans : Transitive key2Le := fun _ _ _ h1 h2 => le_trans h1 h2

/-- The reduced non-key columns of one aggregation group: the result of
applying the `aggregations` dictionary (src lines 386-395) to the group's
column series — `combine_text_values` for the four text columns,
`sum_numeric_values` for the three numeric ones. -/
structure AggVals where
  «产品» : String
  «金额/万元» : Val
  «控货类业务逾期金额» : Val
  «授信类业务逾期金额» : Val
  «本周还款计划» : String
  «集团在手(万元)» : String
  «集团占用(万元)» : String
deriving DecidableEq

/-- Apply the `aggregations` reducers to one group of rows.  An error of
any `sum_numeric_values` call (a `TypeError` from mixed-type cells)
propagates, exactly as a reducer exception escapes `DataFrame.agg`. -/
def reduceGroup (grp : List SimpRow) : Except Unit AggVals := do
  let m ← sum_numeric_values (grp.map (·.«金额/万元»))
  let kh ← sum_numeric_values (grp.map (·.«控货类业务逾期金额»))
  let sx ← sum_numeric_values (grp.map (·.«授信类业务逾期金额»))
  pure
    { «产品» := combine_text_values (grp.map (·.«产品»))
      «金额/万元» := m
      «控货类业务逾期金额» := kh
      «授信类业务逾期金额» := sx
      «本周还款计划» := combine_text_values (grp.map (·.«本周还款计划»))
      «集团在手(万元)» := combine_text_values (grp.map (·.«集团在手(万元)»))
      «集团占用(万元)» := combine_text_values (grp.map (·.«集团占用(万元)»)) }

/-- The three-level dimension key of a row (`['板群', '经营单位', '客户']`). -/
def rowKey3 (r : SimpRow) : Key3 := (r.«板群», r.«经营单位», r.«客户»)

/-- The outer-dimension key of a row (`['板群', '经营单位']`). -/
def rowKey2 (r : SimpRow) : Key2 := (r.«板群», r.«经营单位»)

/-- No component of the key is missing.  pandas `groupby` silently drops
a row whose key contains `NaN` (`dropna=True`, the default). -/
def key3Ok (k : Key3) : Bool :=
  decide (k.1 ≠ Val.blank) && decide (k.2.1 ≠ Val.blank) && decide (k.2.2 ≠ Val.blank)

/-- No component of the outer key is missing. -/
def key2Ok (k : Key2) : Bool :=
  decide (k.1 ≠ Val.blank) && decide (k.2 ≠ Val.blank)

/-- Rebuild an output row from a group key and the reduced columns
(`reset_index()` turns the key levels back into columns). -/
def mkRow3 (k : Key3) (v : AggVals) : SimpRow :=
  { «板群» := k.1
    «经营单位» := k.2.1
    «客户» := k.2.2
    «产品» := .str v.«产品»
    «金额/万元» := v.«金额/万元»
    «控货类业务逾期金额» := v.«控货类业务逾期金额»
    «授信类业务逾期金额» := v.«授信类业务逾期金额»
    «本周还款计划» := .str v.«本周还款计划»
    «集团在手(万元)» := .str v.«集团在手(万元)»
    «集团占用(万元)» := .str v.«集团占用(万元)» }

/-- Rebuild an output row from an outer-dimension key, the entity column
holding the sentinel `'其他'`. -/
def mkRow2 (k : Key2) (v : AggVals) : SimpRow :=
  { «板群» := k.1
    «经营单位» := k.2
    «客户» := .str "其他"
    «产品» := .str v.«产品»
    «金额/万元» := v.«金额/万元»
    «控货类业务逾期金额» := v.«控货类业务逾期金额»
    «授信类业务逾期金额» := v.«授信类业务逾期金额»
    «本周还款计划» := .str v.«本周还款计划»
    «集团在手(万元)» := .str v.«集团在手(万元)»
    «集团占用(万元)» := .str v.«集团占用(万元)» }

/-- `df_simplified.groupby(['板群', '经营单位', '客户']).agg(aggregations)
.reset_index()` (src lines 397-398): the group keys are the distinct key
triples with no missing component (pandas drops `NaN` keys), listed in
ascending lexicographic order (`sort=True`, the pandas default — *not*
first-seen order), and each group's columns are reduced with the
`aggregations` reducers; a reducer error aborts the whole aggregation. -/
def aggregate (rows : List SimpRow) : Except Unit (List SimpRow) :=
  (sortedKeys key3Le ((rows.map rowKey3).filter key3Ok)).mapM
    (fun k => do
      let v ← reduceGroup (rows.filter (fun r => decide (rowKey3 r = k)))
      pure (mkRow3 k v))

/-- The re-aggregation of collapsed small-entity rows as claim C2 words
it: the same group-by-and-reduce rule keyed one level coarser — only the
outer dimensions (板群, 经营单位) — with the entity column holding the
sentinel `'其他'`.  Defined for comparison with the code's three-key
re-aggregation (whose third key level is constantly `'其他'`). -/
def aggregateOuter (rows : List SimpRow) : Except Unit (List SimpRow) :=
  (sortedKeys key2Le ((rows.map rowKey2).filter key2Ok)).mapM
    (fun k => do
      let v ← reduceGroup (rows.filter (fun r => decide (rowKey2 r = k)))
      pure (mkRow2 k v))

-- ### the threshold bucketizer (src lines 400-431)

/-- Digit-string to natural number; `none` on a non-digit or the empty
string. -/
def parseNatDigits (cs : List Char) : Option ℕ :=
  if cs.isEmpty then none
  else
    cs.foldl
      (fun acc c =>
        match acc with
        | none => none
        | some n => if c.isDigit then some (10 * n + (c.toNat - 48)) else none)
      (some 0)

/-- Unsigned decimal literal (`123`, `12.5`, `.5`, `7.`); `none`
otherwise. -/
def parseUnsignedDec (cs : List Char) : Option ℚ :=
  match cs.span (fun c => decide (c ≠ '.')) with
  | (ip, []) => (parseNatDigits ip).map (fun n => (n : ℚ))
  | (ip, _ :: fp) =>
    if fp.contains '.' then none
    else if ip.isEmpty && fp.isEmpty then none
    else
      match (if ip.isEmpty then some 0 else parseNatDigits ip),
          (if fp.isEmpty then some 0 else parseNatDigits fp) with
      | some a, some b => some ((a : ℚ) + (b : ℚ) / (10 : ℚ) ^ fp.length)
      | _, _ => none

/-- Python `float(s)` on ordinary decimal text: optional sign around an
unsigned decimal, surrounding whitespace ignored.  (Exotic accepted forms
— exponents, `inf`, `nan`, underscore separators — are modelled as
failures; no checked property depends on them.) -/
def pyFloat? (s : String) : Option ℚ :=
  match (pyStrip s).data with
  | '-' :: rest => (parseUnsignedDec rest).map Neg.neg
  | '+' :: rest => parseUnsignedDec rest
  | cs => parseUnsignedDec cs

/-- `pd.to_numeric(..., errors='coerce')` on one cell: numbers pass
through, missing values stay missing, and a string becomes its parsed
numeric value or `NaN` if it does not parse. -/
def pdToNumeric : Val → Val
  | .num q => .num q
  | .blank => .blank
  | .str s =>
    match pyFloat? s with
    | some q => .num q
    | none => .blank

/-- Line 402: coerce the `'金额/万元'` column of the aggregated table to
numeric. -/
def toNumericAmt (rows : List SimpRow) : List SimpRow :=
  rows.map (fun r => { r with «金额/万元» := pdToNumeric r.«金额/万元» })

/-- Line 405: one entity's amount total across all its aggregated rows
(`grouped_df.groupby('客户')['金额/万元'].sum()`, `NaN` skipped). -/
def customerTotal (rows : List SimpRow) (c : Val) : ℚ :=
  nansum ((rows.filter (fun r => decide (r.«客户» = c))).map (·.«金额/万元»))

/-- Lines 405-411: the row belongs to a "large" entity — its customer is
a real (non-missing) group key whose total is `>= threshold`.  (A
missing customer never appears in `large_customers`, because `groupby`
drops the `NaN` key.) -/
def isLargeRow (rows : List SimpRow) (threshold : ℚ) (r : SimpRow) : Bool :=
  decide (r.«客户» ≠ Val.blank) && decide (threshold ≤ customerTotal rows r.«客户»)

/-- Lines 417-423: a collapsed small-entity row — the customer becomes
`'其他'` and the four `columns_to_modify` detail columns become
`'见明细表'`. -/
def collapseRow (r : SimpRow) : SimpRow :=
  { r with
    «客户» := .str "其他"
    «产品» := .str "见明细表"
    «本周还款计划» := .str "见明细表"
    «集团在手(万元)» := .str "见明细表"
    «集团占用(万元)» := .str "见明细表" }

/-- The retained rows of large entities (`large_df`, line 411). -/
def largeRows (rows : List SimpRow) (t : ℚ) : List SimpRow :=
  (toNumericAmt rows).filter (isLargeRow (toNumericAmt rows) t)

/-- The rows of small entities (`small_df`, line 412). -/
def smallRows (rows : List SimpRow) (t : ℚ) : List SimpRow :=
  (toNumericAmt rows).filter (fun r => !(isLargeRow (toNumericAmt rows) t r))

/-- The threshold bucketizer, lines 400-431 of `process_overdue_payment`:
coerce the amount column to numeric, split the aggregated rows by the
per-customer total against the threshold, rewrite the small rows'
customer and detail columns to the sentinels, re-aggregate the small rows
by `['板群', '经营单位', '客户']` (the customer now constantly `'其他'`),
and append the re-aggregated small rows after the retained large rows.
When there are no small rows the large rows alone are the result. -/
def bucketize (rows : List SimpRow) (threshold : ℚ) : Except Unit (List SimpRow) :=
  if (smallRows rows threshold).isEmpty then .ok (largeRows rows threshold)
  else do
    let smallAgg ← aggregate ((smallRows rows threshold).map collapseRow)
    pure (largeRows rows threshold ++ smallAgg)

deriving instance DecidableEq for Except

-- ### lemmas about `aggregate`

theorem rowKey3_mkRow3 (k : Key3) (v : AggVals) : rowKey3 (mkRow3 k v) = k := rfl

theorem mapM3_keys (grp : Key3 → Except Unit AggVals) :
    ∀ (ks : List Key3) (out : List SimpRow),
      ks.mapM (fun k => do
        let v ← grp k
        pure (mkRow3 k v)) = .ok out →
      out.map rowKey3 = ks := by
  intro ks
  induction ks with
  | nil =>
    intro out h
    simp only [List.mapM_nil] at h
    cases h
    rfl
  | cons k ks ih =>
    intro out h
    rw [List.mapM_cons] at h
    cases hg : grp k with
    | error e =>
      rw [hg] at h
      simp only [Bind.bind, Except.bind] at h
      exact Except.noConfusion h
    | ok v =>
      rw [hg] at h
      cases hm : ks.mapM (fun k => do
          let v ← grp k
          pure (mkRow3 k v)) with
      | error e =>
        rw [hm] at h
        simp only [Bind.bind, Except.bind, Pure.pure, Except.pure] at h
        exact Except.noConfusion h
      | ok ys =>
        rw [hm] at h
        simp only [Bind.bind, Except.bind, Pure.pure, Except.pure, Except.ok.injEq] at h
        subst h
        simp [ih ys hm, rowKey3_mkRow3]

theorem aggregate_ok_keys (rows out : List SimpRow) (h : aggregate rows = .ok out) :
    out.map rowKey3 = sortedKeys key3Le ((rows.map rowKey3).filter key3Ok) :=
  mapM3_keys _ _ _ h

-- ### Claim C3: aggregator output — one row per key, sorted

/-- A concrete aggregated-table row, used in witnesses and
counterexamples: one customer `c` with amount `q` under fixed outer
dimensions. -/
def sampleRow (c : String) (q : ℚ) : SimpRow :=
  { «板群» := .str "G"
    «经营单位» := .str "U"
    «客户» := .str c
    «产品» := .str "P"
    «金额/万元» := .num q
    «控货类业务逾期金额» := .num 0
    «授信类业务逾期金额» := .num q
    «本周还款计划» := .str ""
    «集团在手(万元)» := .str ""
    «集团占用(万元)» := .str "" }

unseal Rat.add Rat.sub Rat.mul in
/-- Claim C3 counterexample: the claim says aggregated rows appear in the
order their keys were first seen; pandas `groupby` (with its default
`sort=True`) emits them in ascending key order instead.  With the key
`"b"` seen before `"a"`, the output lists `"a"` first. -/
theorem aggregate_not_first_seen_cex :
    (aggregate [sampleRow "b" 1, sampleRow "a" 2]).map (fun l => l.map (·.«客户»))
      = .ok [Val.str "a", Val.str "b"] ∧
    [sampleRow "b" 1, sampleRow "a" 2].map (·.«客户») = [Val.str "b", Val.str "a"] := by
  constructor <;> decide

/-- Claim C3 (amended): aggregation emits exactly one row per distinct
dimension-key triple among the rows whose key components are all present
(pandas silently drops a row whose 板群/经营单位/客户 contains a missing
value), and the output rows appear in ascending lexicographic key order —
the pandas `sort=True` default — not in first-seen order. -/
theorem aggregate_one_row_per_key_sorted (rows out : List SimpRow)
    (h : aggregate rows = .ok out) :
    (out.map rowKey3).Nodup ∧
    (∀ k, k ∈ out.map rowKey3 ↔ (key3Ok k = true ∧ k ∈ rows.map rowKey3)) ∧
    (out.map rowKey3).Pairwise key3Le := by
  rw [aggregate_ok_keys rows out h]
  refine ⟨nodup_sortedKeys _ _, ?_, pairwise_sortedKeys _ key3Le_total key3Le_trans _⟩
  intro k
  rw [mem_sortedKeys, List.mem_filter]
  tauto

/-- Witness output of `aggregate` on `[sampleRow "b" 1, sampleRow "a" 2]`. -/
def aggWitOut : List SimpRow :=
  [mkRow3 (.str "G", .str "U", .str "a") ⟨"P", .num 2, .num 0, .num 2, "", "", ""⟩,
   mkRow3 (.str "G", .str "U", .str "b") ⟨"P", .num 1, .num 0, .num 1, "", "", ""⟩]

unseal Rat.add Rat.sub Rat.mul in
/-- Witness for `aggregate_one_row_per_key_sorted` at a concrete table. -/
theorem aggregate_one_row_per_key_sorted_wit :
    aggregate [sampleRow "b" 1, sampleRow "a" 2] = .ok aggWitOut ∧
    (aggWitOut.map rowKey3).Nodup ∧
    ((Val.str "G", Val.str "U", Val.str "a") ∈ aggWitOut.map rowKey3 ↔
      (key3Ok (Val.str "G", Val.str "U", Val.str "a") = true ∧
        (Val.str "G", Val.str "U", Val.str "a")
          ∈ [sampleRow "b" 1, sampleRow "a" 2].map rowKey3)) ∧
    (aggWitOut.map rowKey3).Pairwise key3Le :=
  ⟨by decide,
   (aggregate_one_row_per_key_sorted [sampleRow "b" 1, sampleRow "a" 2] aggWitOut
      (by decide)).1,
   (aggregate_one_row_per_key_sorted [sampleRow "b" 1, sampleRow "a" 2] aggWitOut
      (by decide)).2.1 _,
   (aggregate_one_row_per_key_sorted [sampleRow "b" 1, sampleRow "a" 2] aggWitOut
      (by decide)).2.2⟩

-- ### conservation of the amount column

theorem nansum_nil : nansum [] = 0 := rfl

theorem nansum_cons (v : Val) (l : List Val) : nansum (v :: l) = valNum v + nansum l := by
  simp [nansum]

theorem nansum_append (l1 l2 : List Val) : nansum (l1 ++ l2) = nansum l1 + nansum l2 := by
  simp [nansum]

theorem foldlM_pyAdd_valNum :
    ∀ (l : List Val) (init v : Val), l.foldlM pyAdd init = .ok v →
      valNum v = valNum init + (l.map valNum).sum := by
  intro l
  induction l with
  | nil =>
    intro init v h
    have h' : (Except.ok init : Except Unit Val) = .ok v := h
    cases h'
    simp
  | cons b l ih =>
    intro init v h
    rw [List.foldlM_cons] at h
    cases hp : pyAdd init b with
    | error e =>
      rw [hp] at h
      simp only [Bind.bind, Except.bind] at h
      exact Except.noConfusion h
    | ok w =>
      rw [hp] at h
      simp only [Bind.bind, Except.bind] at h
      have hv := ih w v h
      have hw : valNum w = valNum init + valNum b := by
        cases init <;> cases b <;>
          simp only [pyAdd, Except.ok.injEq, reduceCtorEq] at hp <;>
          (try cases hp) <;> simp [valNum]
      rw [hv, hw]
      simp [add_assoc]

theorem sum_numeric_values_valNum {l : List Val} {v : Val}
    (h : sum_numeric_values l = .ok v) : valNum v = nansum l := by
  unfold sum_numeric_values at h
  cases hf : l.filter (fun v => decide (v ≠ Val.blank)) with
  | nil =>
    rw [hf] at h
    have h' : (Except.ok (Val.num 0) : Except Unit Val) = .ok v := h
    cases h'
    rw [← nansum_filter_ne_blank l, hf]
    rfl
  | cons a as =>
    rw [hf] at h
    have := foldlM_pyAdd_valNum as a v h
    rw [← nansum_filter_ne_blank l, hf, nansum_cons, this]
    rfl

theorem reduceGroup_ok_amount {grp : List SimpRow} {v : AggVals}
    (h : reduceGroup grp = .ok v) :
    sum_numeric_values (grp.map (·.«金额/万元»)) = .ok v.«金额/万元» := by
  unfold reduceGroup at h
  cases h1 : sum_numeric_values (grp.map (·.«金额/万元»)) with
  | error e =>
    rw [h1] at h
    simp only [Bind.bind, Except.bind] at h
    exact Except.noConfusion h
  | ok m =>
    rw [h1] at h
    simp only [Bind.bind, Except.bind] at h
    cases h2 : sum_numeric_values (grp.map (·.«控货类业务逾期金额»)) with
    | error e =>
      rw [h2] at h
      exact Except.noConfusion h
    | ok kh =>
      rw [h2] at h
      cases h3 : sum_numeric_values (grp.map (·.«授信类业务逾期金额»)) with
      | error e =>
        rw [h3] at h
        exact Except.noConfusion h
      | ok sx =>
        rw [h3] at h
        have h' : (Except.ok (ε := Unit)
            { «产品» := combine_text_values (grp.map (·.«产品»))
              «金额/万元» := m
              «控货类业务逾期金额» := kh
              «授信类业务逾期金额» := sx
              «本周还款计划» := combine_text_values (grp.map (·.«本周还款计划»))
              «集团在手(万元)» := combine_text_values (grp.map (·.«集团在手(万元)»))
              «集团占用(万元)» := combine_text_values (grp.map (·.«集团占用(万元)»)) })
            = .ok v := h
        cases h'
        rfl

theorem nansum_map_filter_split {α : Type} (g : α → Val) (p : α → Bool) :
    ∀ l : List α,
      nansum ((l.filter p).map g) + nansum ((l.filter (fun r => !p r)).map g)
        = nansum (l.map g) := by
  intro l
  induction l with
  | nil => simp [nansum]
  | cons a l ih =>
    cases hp : p a <;>
      simp only [List.filter_cons, hp, Bool.not_true, Bool.not_false, if_pos, if_neg,
        Bool.false_eq_true, Bool.true_eq_false, ite_true, ite_false, List.map_cons,
        nansum_cons] <;> linarith [ih]

theorem filter_key_of_ne {k k' : Key3} (hne : k' ≠ k) :
    ∀ l : List SimpRow,
      (l.filter (fun r => !decide (rowKey3 r = k))).filter (fun r => decide (rowKey3 r = k'))
        = l.filter (fun r => decide (rowKey3 r = k')) := by
  intro l
  induction l with
  | nil => rfl
  | cons a l ih =>
    by_cases hk : rowKey3 a = k
    · have hk' : rowKey3 a ≠ k' := fun hh => hne (hh.symm.trans hk)
      have h1 : (!decide (rowKey3 a = k)) = false := by simp [hk]
      have h2 : (decide (rowKey3 a = k')) = false := by simp [hk']
      simp [List.filter_cons, h1, h2, ih]
    · have h1 : (!decide (rowKey3 a = k)) = true := by simp [hk]
      by_cases hk' : rowKey3 a = k'
      · have h2 : (decide (rowKey3 a = k')) = true := by simp [hk']
        simp [List.filter_cons, h1, h2, ih]
      · have h2 : (decide (rowKey3 a = k')) = false := by simp [hk']
        simp [List.filter_cons, h1, h2, ih]

theorem nansum_partition (g : SimpRow → Val) :
    ∀ (ks : List Key3) (l : List SimpRow), ks.Nodup → (∀ r ∈ l, rowKey3 r ∈ ks) →
      (ks.map (fun k => nansum ((l.filter (fun r => decide (rowKey3 r = k))).map g))).sum
        = nansum (l.map g) := by
  intro ks
  induction ks with
  | nil =>
    intro l _ hmem
    cases l with
    | nil => simp [nansum]
    | cons a l => exact absurd (hmem a (List.mem_cons_self _ _)) (List.not_mem_nil _)
  | cons k ks ih =>
    intro l hnd hmem
    rcases List.nodup_cons.mp hnd with ⟨hk, hnd'⟩
    have hmem' : ∀ r ∈ l.filter (fun r => !decide (rowKey3 r = k)), rowKey3 r ∈ ks := by
      intro r hr
      rcases List.mem_filter.mp hr with ⟨hrl, hrk⟩
      rcases List.mem_cons.mp (hmem r hrl) with heq | hin
      · simp [heq] at hrk
      · exact hin
    have hih := ih (l.filter (fun r => !decide (rowKey3 r = k))) hnd' hmem'
    have hcongr :
        (ks.map (fun k' => nansum (((l.filter (fun r => !decide (rowKey3 r = k))).filter
            (fun r => decide (rowKey3 r = k'))).map g))).sum
          = (ks.map (fun k' => nansum ((l.filter (fun r => decide (rowKey3 r = k'))).map g))).sum := by
      refine congrArg List.sum (List.map_congr_left ?_)
      intro k' hk'
      rw [filter_key_of_ne (fun hh : k' = k => hk (hh ▸ hk')) l]
    rw [List.map_cons, List.sum_cons, ← nansum_map_filter_split g
      (fun r => decide (rowKey3 r = k)) l]
    rw [← hcongr, hih]

theorem mapM3_amount_sum (rows : List SimpRow) :
    ∀ (ks : List Key3) (out : List SimpRow),
      ks.mapM (fun k => do
        let v ← reduceGroup (rows.filter (fun r => decide (rowKey3 r = k)))
        pure (mkRow3 k v)) = .ok out →
      nansum (out.map (·.«金额/万元»))
        = (ks.map (fun k =>
            nansum ((rows.filter (fun r => decide (rowKey3 r = k))).map (·.«金额/万元»)))).sum := by
  intro ks
  induction ks with
  | nil =>
    intro out h
    simp only [List.mapM_nil] at h
    cases h
    simp [nansum]
  | cons k ks ih =>
    intro out h
    rw [List.mapM_cons] at h
    cases hg : reduceGroup (rows.filter (fun r => decide (rowKey3 r = k))) with
    | error e =>
      rw [hg] at h
      simp only [Bind.bind, Except.bind] at h
      exact Except.noConfusion h
    | ok v =>
      rw [hg] at h
      cases hm : ks.mapM (fun k => do
          let v ← reduceGroup (rows.filter (fun r => decide (rowKey3 r = k)))
          pure (mkRow3 k v)) with
      | error e =>
        rw [hm] at h
        simp only [Bind.bind, Except.bind, Pure.pure, Except.pure] at h
        exact Except.noConfusion h
      | ok ys =>
        rw [hm] at h
        simp only [Bind.bind, Except.bind, Pure.pure, Except.pure, Except.ok.injEq] at h
        subst h
        have hamt : valNum (mkRow3 k v).«金额/万元»
            = nansum ((rows.filter (fun r => decide (rowKey3 r = k))).map (·.«金额/万元»)) :=
          sum_numeric_values_valNum (reduceGroup_ok_amount hg)
        rw [List.map_cons, nansum_cons, List.map_cons, List.sum_cons, hamt, ih ys hm]

theorem aggregate_ok_amount_sum (rows out : List SimpRow)
    (h : aggregate rows = .ok out)
    (hkeys : ∀ r ∈ rows, key3Ok (rowKey3 r) = true) :
    nansum (out.map (·.«金额/万元»)) = nansum (rows.map (·.«金额/万元»)) := by
  rw [mapM3_amount_sum rows _ out h]
  refine nansum_partition _ _ rows (nodup_sortedKeys _ _) ?_
  intro r hr
  exact (mem_sortedKeys key3Le).mpr
    (List.mem_filter.mpr ⟨List.mem_map_of_mem _ hr, hkeys r hr⟩)

theorem pdToNumeric_numOrBlank {v : Val} (h : numOrBlank v = true) : pdToNumeric v = v := by
  cases v with
  | num q => rfl
  | blank => rfl
  | str s => simp [numOrBlank] at h

theorem toNumericAmt_id (rows : List SimpRow)
    (h : ∀ r ∈ rows, numOrBlank r.«金额/万元» = true) : toNumericAmt rows = rows := by
  induction rows with
  | nil => rfl
  | cons r rs ih =>
    show ({ r with «金额/万元» := pdToNumeric r.«金额/万元» } :: toNumericAmt rs) = r :: rs
    rw [pdToNumeric_numOrBlank (h r (List.mem_cons_self _ _)),
      ih (fun x hx => h x (List.mem_cons_of_mem _ hx))]

-- ### Claim C1: round-trip conservation under bucketing

/-- Claim C1: for every aggregated table (amount column numeric-or-blank,
as `pd.to_numeric(..., errors='coerce')` leaves it, and outer dimension
keys present, as `groupby` output guarantees) and every threshold, the
sum of the `'金额/万元'` column over the bucketizer's final output —
retained large rows plus collapsed `'其他'` rows — equals the sum of that
column over all input aggregated rows.  The value model is exact rational
arithmetic, so the equality is exact (the claim's floating-point
tolerance covers the Python floats the rationals stand in for). -/
theorem bucketize_conserves_total (rows : List SimpRow) (t : ℚ) (out : List SimpRow)
    (hnum : ∀ r ∈ rows, numOrBlank r.«金额/万元» = true)
    (houter : ∀ r ∈ rows, r.«板群» ≠ Val.blank ∧ r.«经营单位» ≠ Val.blank)
    (h : bucketize rows t = .ok out) :
    nansum (out.map (·.«金额/万元»)) = nansum (rows.map (·.«金额/万元»)) := by
  have hto : toNumericAmt rows = rows := toNumericAmt_id rows hnum
  have hlr : largeRows rows t = rows.filter (isLargeRow rows t) := by
    unfold largeRows
    rw [hto]
  have hsr : smallRows rows t = rows.filter (fun r => !(isLargeRow rows t r)) := by
    unfold smallRows
    rw [hto]
  unfold bucketize at h
  rw [hlr, hsr] at h
  by_cases hempty : (rows.filter (fun r => !(isLargeRow rows t r))).isEmpty
  · rw [if_pos hempty] at h
    have h' : (Except.ok (rows.filter (isLargeRow rows t)) : Except Unit (List SimpRow))
        = .ok out := h
    cases h'
    have hnil : rows.filter (fun r => !(isLargeRow rows t r)) = [] := by
      simpa [List.isEmpty_iff] using hempty
    have hsplit := nansum_map_filter_split (·.«金额/万元») (isLargeRow rows t) rows
    rw [hnil] at hsplit
    simpa [nansum] using hsplit
  · rw [if_neg hempty] at h
    cases hagg : aggregate ((rows.filter (fun r => !(isLargeRow rows t r))).map collapseRow) with
    | error e =>
      rw [hagg] at h
      simp only [Bind.bind, Except.bind] at h
      exact Except.noConfusion h
    | ok sa =>
      rw [hagg] at h
      simp only [Bind.bind, Except.bind, Pure.pure, Except.pure, Except.ok.injEq] at h
      subst h
      have hkeys : ∀ x ∈ (rows.filter (fun r => !(isLargeRow rows t r))).map collapseRow,
          key3Ok (rowKey3 x) = true := by
        intro x hx
        rcases List.mem_map.mp hx with ⟨r, hr, rfl⟩
        have hro := houter r (List.mem_filter.mp hr).1
        simp [key3Ok, rowKey3, collapseRow, hro.1, hro.2]
      have hsa := aggregate_ok_amount_sum _ sa hagg hkeys
      have hmapped :
          nansum ((((rows.filter (fun r => !(isLargeRow rows t r))).map collapseRow)).map
            (·.«金额/万元»))
          = nansum ((rows.filter (fun r => !(isLargeRow rows t r))).map (·.«金额/万元»)) := by
        rw [List.map_map]
        rfl
      rw [List.map_append, nansum_append, hsa, hmapped,
        nansum_map_filter_split (·.«金额/万元») (isLargeRow rows t) rows]

/-- Witness output of `bucketize` on `[sampleRow "b" 1, sampleRow "a" 2]`
with threshold 2: customer `"a"` (total 2 ≥ 2) is retained, customer
`"b"` (total 1 < 2) collapses into `'其他'`. -/
def bucketWitOut : List SimpRow :=
  [sampleRow "a" 2,
   mkRow3 (.str "G", .str "U", .str "其他")
     ⟨"见明细表", .num 1, .num 0, .num 1, "见明细表", "见明细表", "见明细表"⟩]

unseal Rat.add Rat.sub Rat.mul in
/-- Witness for `bucketize_conserves_total` at a concrete table. -/
theorem bucketize_conserves_total_wit :
    ([sampleRow "b" 1, sampleRow "a" 2].all (fun r => numOrBlank r.«金额/万元»)) = true ∧
    ([sampleRow "b" 1, sampleRow "a" 2].all
      (fun r => decide (r.«板群» ≠ Val.blank) && decide (r.«经营单位» ≠ Val.blank))) = true ∧
    bucketize [sampleRow "b" 1, sampleRow "a" 2] 2 = .ok bucketWitOut ∧
    nansum (bucketWitOut.map (·.«金额/万元»))
      = nansum ([sampleRow "b" 1, sampleRow "a" 2].map (·.«金额/万元»)) :=
  ⟨by decide, by decide, by decide,
   bucketize_conserves_total [sampleRow "b" 1, sampleRow "a" 2] 2 bucketWitOut
     (by decide) (by decide) (by decide)⟩

-- ### Claim C2: bucketizer partition behaviour

/-- Lift an outer-dimension key to a full key whose entity level is the
sentinel `'其他'` — the shape every collapsed small row's key has. -/
def addOther (p : Key2) : Key3 := (p.1, p.2, Val.str "其他")

theorem key3Le_addOther (p q : Key2) : key3Le (addOther p) (addOther q) ↔ key2Le p q := by
  show toLex (valOrdKey p.1, toLex (valOrdKey p.2, valOrdKey (Val.str "其他")))
      ≤ toLex (valOrdKey q.1, toLex (valOrdKey q.2, valOrdKey (Val.str "其他")))
    ↔ toLex (valOrdKey p.1, valOrdKey p.2) ≤ toLex (valOrdKey q.1, valOrdKey q.2)
  simp only [Prod.Lex.le_iff, le_refl, and_true]
  rw [← le_iff_lt_or_eq]

theorem addOther_injective {x k : Key2} (h : addOther x = addOther k) : x = k := by
  have h1 := congrArg (fun t : Key3 => (t.1, t.2.1)) h
  exact h1

theorem mem_map_addOther {k : Key2} {l : List Key2} : addOther k ∈ l.map addOther ↔ k ∈ l := by
  constructor
  · intro h
    rcases List.mem_map.mp h with ⟨x, hx, heq⟩
    exact (addOther_injective heq) ▸ hx
  · exact List.mem_map_of_mem _

theorem insSorted_addOther (k : Key2) :
    ∀ l : List Key2,
      insSorted key3Le (addOther k) (l.map addOther) = (insSorted key2Le k l).map addOther := by
  intro l
  induction l with
  | nil => rfl
  | cons a as ih =>
    rw [List.map_cons, insSorted, insSorted]
    by_cases h : key2Le k a
    · rw [if_pos ((key3Le_addOther k a).mpr h), if_pos h, List.map_cons, List.map_cons]
    · rw [if_neg (fun hh => h ((key3Le_addOther k a).mp hh)), if_neg h, List.map_cons, ih]

theorem insKey_addOther (l : List Key2) (k : Key2) :
    insKey key3Le (l.map addOther) (addOther k) = (insKey key2Le l k).map addOther := by
  unfold insKey
  by_cases h : k ∈ l
  · rw [if_pos (mem_map_addOther.mpr h), if_pos h]
  · rw [if_neg (fun hh => h (mem_map_addOther.mp hh)), if_neg h, insSorted_addOther]

theorem foldl_insKey_addOther :
    ∀ (ks : List Key2) (acc : List Key2),
      (ks.map addOther).foldl (insKey key3Le) (acc.map addOther)
        = (ks.foldl (insKey key2Le) acc).map addOther := by
  intro ks
  induction ks with
  | nil => intro acc; rfl
  | cons k ks ih =>
    intro acc
    rw [List.map_cons, List.foldl_cons, List.foldl_cons, insKey_addOther]
    exact ih (insKey key2Le acc k)

theorem sortedKeys_addOther (ks : List Key2) :
    sortedKeys key3Le (ks.map addOther) = (sortedKeys key2Le ks).map addOther :=
  foldl_insKey_addOther ks []

theorem keys3_of_other :
    ∀ rows : List SimpRow, (∀ r ∈ rows, r.«客户» = Val.str "其他") →
      (rows.map rowKey3).filter key3Ok = ((rows.map rowKey2).filter key2Ok).map addOther := by
  intro rows
  induction rows with
  | nil => intro _; rfl
  | cons r rs ih =>
    intro hall
    have hr := hall r (List.mem_cons_self _ _)
    have hkey : rowKey3 r = addOther (rowKey2 r) := by
      unfold rowKey3 rowKey2 addOther
      rw [hr]
    have hok : key3Ok (addOther (rowKey2 r)) = key2Ok (rowKey2 r) := by
      unfold key3Ok key2Ok addOther
      simp
    have ih' := ih (fun x hx => hall x (List.mem_cons_of_mem _ hx))
    cases h2 : key2Ok (rowKey2 r) with
    | true =>
      simp only [List.map_cons, List.filter_cons, hkey, hok, h2, ite_true, ih']
    | false =>
      simp only [List.map_cons, List.filter_cons, hkey, hok, h2, ite_false,
        Bool.false_eq_true, ih']

theorem group3_of_other (rows : List SimpRow)
    (hall : ∀ r ∈ rows, r.«客户» = Val.str "其他") (p : Key2) :
    rows.filter (fun r => decide (rowKey3 r = addOther p))
      = rows.filter (fun r => decide (rowKey2 r = p)) := by
  apply List.filter_congr
  intro r hr
  have hr' := hall r hr
  have hiff : (rowKey3 r = addOther p) ↔ (rowKey2 r = p) := by
    unfold rowKey3 rowKey2 addOther
    rw [hr']
    constructor
    · intro h
      exact congrArg (fun t : Key3 => (t.1, t.2.1)) h
    · intro h
      exact congrArg (fun t : Key2 => (t.1, t.2, Val.str "其他")) h
  exact decide_eq_decide.mpr hiff

theorem mapM_map_addOther (f : Key3 → Except Unit SimpRow) :
    ∀ ks : List Key2, (ks.map addOther).mapM f = ks.mapM (fun k => f (addOther k)) := by
  intro ks
  induction ks with
  | nil => rfl
  | cons k ks ih =>
    rw [List.map_cons, List.mapM_cons, List.mapM_cons, ih]

/-- On rows whose entity column is constantly `'其他'` — exactly the
collapsed small rows — the code's three-key re-aggregation coincides with
the outer-dimension re-aggregation the claim describes. -/
theorem aggregate_of_other (rows : List SimpRow)
    (hall : ∀ r ∈ rows, r.«客户» = Val.str "其他") :
    aggregate rows = aggregateOuter rows := by
  unfold aggregate aggregateOuter
  rw [keys3_of_other rows hall, sortedKeys_addOther, mapM_map_addOther]
  congr 1
  funext k
  rw [group3_of_other rows hall k]
  rfl

/-- Claim C2: the bucketizer retains the rows of every large entity
unchanged (a row is large when its customer's total over the whole
aggregated table reaches the threshold), rewrites each remaining row's
entity value to `'其他'` and its detail columns to `'见明细表'`,
re-aggregates those rows grouping only by the outer dimensions
(板群, 经营单位), and emits the retained large rows followed by the
re-aggregated small rows.  (The amount column is assumed numeric-or-blank
so that the `pd.to_numeric` pass is the identity and "unchanged" is
literal.) -/
theorem bucketize_partition_behaviour (rows : List SimpRow) (t : ℚ) (out : List SimpRow)
    (hnum : ∀ r ∈ rows, numOrBlank r.«金额/万元» = true)
    (h : bucketize rows t = .ok out) :
    ∃ s2,
      aggregateOuter ((rows.filter (fun r => !(isLargeRow rows t r))).map collapseRow) = .ok s2
        ∧ out = rows.filter (isLargeRow rows t) ++ s2 := by
  have hto : toNumericAmt rows = rows := toNumericAmt_id rows hnum
  have hlr : largeRows rows t = rows.filter (isLargeRow rows t) := by
    unfold largeRows
    rw [hto]
  have hsr : smallRows rows t = rows.filter (fun r => !(isLargeRow rows t r)) := by
    unfold smallRows
    rw [hto]
  have hall : ∀ r ∈ (rows.filter (fun r => !(isLargeRow rows t r))).map collapseRow,
      r.«客户» = Val.str "其他" := by
    intro r hr
    rcases List.mem_map.mp hr with ⟨x, _, rfl⟩
    rfl
  rw [← aggregate_of_other _ hall]
  unfold bucketize at h
  rw [hlr, hsr] at h
  by_cases hempty : (rows.filter (fun r => !(isLargeRow rows t r))).isEmpty
  · rw [if_pos hempty] at h
    have hnil : rows.filter (fun r => !(isLargeRow rows t r)) = [] := by
      simpa [List.isEmpty_iff] using hempty
    have h' : (Except.ok (rows.filter (isLargeRow rows t)) : Except Unit (List SimpRow))
        = .ok out := h
    cases h'
    refine ⟨[], ?_, (List.append_nil _).symm⟩
    rw [hnil]
    rfl
  · rw [if_neg hempty] at h
    cases hagg : aggregate ((rows.filter (fun r => !(isLargeRow rows t r))).map collapseRow) with
    | error e =>
      rw [hagg] at h
      simp only [Bind.bind, Except.bind] at h
      exact Except.noConfusion h
    | ok sa =>
      rw [hagg] at h
      simp only [Bind.bind, Except.bind, Pure.pure, Except.pure, Except.ok.injEq] at h
      subst h
      exact ⟨sa, rfl, rfl⟩

unseal Rat.add Rat.sub Rat.mul in
/-- Witness for `bucketize_partition_behaviour` at a concrete table:
with threshold 2, the output is the retained `"a"` row followed by the
outer-dimension re-aggregation of the collapsed `"b"` row. -/
theorem bucketize_partition_behaviour_wit :
    bucketWitOut
      = [sampleRow "b" 1, sampleRow "a" 2].filter
          (isLargeRow [sampleRow "b" 1, sampleRow "a" 2] 2)
        ++ [mkRow3 (.str "G", .str "U", .str "其他")
            ⟨"见明细表", .num 1, .num 0, .num 1, "见明细表", "见明细表", "见明细表"⟩] := by
  obtain ⟨s2, hs2, hout⟩ :=
    bucketize_partition_behaviour [sampleRow "b" 1, sampleRow "a" 2] 2 bucketWitOut
      (by decide) (by decide)
  have hcomp : aggregateOuter
      (([sampleRow "b" 1, sampleRow "a" 2].filter
        (fun r => !(isLargeRow [sampleRow "b" 1, sampleRow "a" 2] 2 r))).map collapseRow)
      = .ok [mkRow3 (.str "G", .str "U", .str "其他")
          ⟨"见明细表", .num 1, .num 0, .num 1, "见明细表", "见明细表", "见明细表"⟩] := by
    decide
  rw [hcomp] at hs2
  rw [hout, (Except.ok.inj hs2)]

-- ### `_find_table_end` (src lines 229-242) and the last-table boundary

/-- A grid row is fully blank when every cell, after `fillna('')` and
`astype(str)`, strips to the empty string (src line 235: the summed
stripped lengths are zero). -/
def isBlankRow (row : List Val) : Bool :=
  row.all (fun v => decide (pyStrip (fillnaStr v) = ""))

/-- The scanning loop of `_find_table_end`: `i` is the current row index,
`cnt` the count of consecutive blank rows seen, `rest` the rows from
index `i` on, `len` the grid height and `thr` the `empty_threshold`
(default 3).  When the count reaches `thr` the function returns
`i - thr`; falling off the grid returns `len - 1`. -/
def findEndLoop (len thr : ℕ) : List (List Val) → ℕ → ℕ → ℕ
  | [], _, _ => len - 1
  | row :: rest, i, cnt =>
    if isBlankRow row then
      if thr ≤ cnt + 1 then i - thr
      else findEndLoop len thr rest (i + 1) (cnt + 1)
    else findEndLoop len thr rest (i + 1) 0

/-- `ExcelProcessor._find_table_end`: scan forward from the row after
`start_row` counting consecutive fully-blank rows; on a run of
`empty_threshold` (3) blanks return the row before the run, otherwise
the last row of the grid. -/
def find_table_end (grid : List (List Val)) (start_row : ℕ) (thr : ℕ := 3) : ℕ :=
  findEndLoop grid.length thr (grid.drop (start_row + 1)) (start_row + 1) 0

/-- Row `j` of the grid exists and is fully blank. -/
def blankAt (grid : List (List Val)) (j : ℕ) : Bool :=
  match grid.get? j with
  | some row => isBlankRow row
  | none => false

/-- Rows `r, r+1, ..., r+thr-1` all exist and are fully blank: a run of
`thr` consecutive blank rows starting at `r`. -/
def runAt (grid : List (List Val)) (thr r : ℕ) : Bool :=
  (List.range thr).all (fun d => blankAt grid (r + d))

/-- `pat` is a prefix of `s` (on character lists). -/
def isPrefixList : List Char → List Char → Bool
  | [], _ => true
  | _ :: _, [] => false
  | p :: ps, c :: cs => p == c && isPrefixList ps cs

/-- `pat` occurs somewhere in `s` (on character lists). -/
def containsSub (pat : List Char) : List Char → Bool
  | [] => pat.isEmpty
  | c :: cs => isPrefixList pat (c :: cs) || containsSub pat cs

/-- Python `pat in s` / pandas `Series.str.contains` with a literal
pattern: substring containment. -/
def strContains (s pat : String) : Bool := containsSub pat.data s.data

/-- The heading search of `read_excel` (src lines 85-99) for the pattern
`一、\s*逾期还款业务`, on headings written without interior whitespace:
the first row whose first cell (missing read as `""`) contains the text
`"一、逾期还款业务"`. -/
def findOverdueHeading (grid : List (List Val)) : Option ℕ :=
  grid.findIdx? (fun row => strContains (fillnaStr (row.headD Val.blank)) "一、逾期还款业务")

theorem run_inside_grid {grid : List (List Val)} {thr rstar : ℕ} (hthr : 0 < thr)
    (hrun : runAt grid thr rstar = true) : rstar + thr ≤ grid.length := by
  have hd : blankAt grid (rstar + (thr - 1)) = true := by
    have := (List.all_eq_true.mp hrun) (thr - 1) (List.mem_range.mpr (by omega))
    simpa using this
  unfold blankAt at hd
  cases hg : grid.get? (rstar + (thr - 1)) with
  | none => rw [hg] at hd; exact absurd hd (by simp)
  | some row =>
    have hlt : rstar + (thr - 1) < grid.length := (List.get?_eq_some.mp hg).1
    omega

theorem drop_cons_get {grid : List (List Val)} {i : ℕ} {row : List Val} {rest : List (List Val)}
    (h : grid.drop i = row :: rest) :
    grid.get? i = some row ∧ rest = grid.drop (i + 1) ∧ i < grid.length := by
  have hget : grid.get? i = some row := by
    have h0 : (grid.drop i).get? 0 = some row := by rw [h]; rfl
    rwa [List.get?_drop, Nat.add_zero] at h0
  refine ⟨hget, ?_, (List.get?_eq_some.mp hget).1⟩
  have : grid.drop (i + 1) = (grid.drop i).drop 1 := by
    rw [List.drop_drop, Nat.add_comm]
  rw [this, h]
  rfl

theorem blankAt_of_get {grid : List (List Val)} {i : ℕ} {row : List Val}
    (hget : grid.get? i = some row) : blankAt grid i = isBlankRow row := by
  unfold blankAt
  rw [hget]

theorem runAt_start {grid : List (List Val)} {thr i cnt : ℕ}
    (hthr : thr = cnt + 1) (hcnt_le : cnt ≤ i)
    (hblanks : ∀ j, i - cnt ≤ j → j < i → blankAt grid j = true)
    (hi : blankAt grid i = true) : runAt grid thr (i - cnt) = true := by
  apply List.all_eq_true.mpr
  intro d hd
  have hd' : d < thr := List.mem_range.mp hd
  by_cases hdc : d < cnt
  · exact hblanks (i - cnt + d) (by omega) (by omega)
  · have heq : i - cnt + d = i := by omega
    rw [heq]
    exact hi

theorem findEndLoop_found (grid : List (List Val)) (thr : ℕ) (hthr : 0 < thr) (rstar : ℕ)
    (hrun : runAt grid thr rstar = true) :
    ∀ (fuel i cnt : ℕ), grid.length - i ≤ fuel → cnt < thr → cnt ≤ i →
      (∀ j, i - cnt ≤ j → j < i → blankAt grid j = true) →
      i - cnt ≤ rstar →
      (∀ r', i - cnt ≤ r' → r' < rstar → runAt grid thr r' = false) →
      findEndLoop grid.length thr (grid.drop i) i cnt = rstar - 1 := by
  intro fuel
  induction fuel with
  | zero =>
    intro i cnt hfuel hcnt hci hblanks hge hleast
    exfalso
    have hlen := run_inside_grid hthr hrun
    omega
  | succ fuel ih =>
    intro i cnt hfuel hcnt hci hblanks hge hleast
    cases hdrop : grid.drop i with
    | nil =>
      exfalso
      have hlen := run_inside_grid hthr hrun
      have : grid.length ≤ i := List.drop_eq_nil_iff.mp hdrop
      omega
    | cons row rest =>
      obtain ⟨hget, hrest, hilt⟩ := drop_cons_get hdrop
      simp only [findEndLoop]
      by_cases hb : isBlankRow row = true
      · rw [if_pos hb]
        by_cases hhit : thr ≤ cnt + 1
        · rw [if_pos hhit]
          have hthr' : thr = cnt + 1 := by omega
          have hstart : runAt grid thr (i - cnt) = true :=
            runAt_start hthr' hci hblanks ((blankAt_of_get hget).trans hb)
          have hreq : rstar = i - cnt := by
            by_contra hne
            have hlt : i - cnt < rstar := by omega
            have := hleast (i - cnt) (le_refl _) hlt
            rw [hstart] at this
            exact Bool.noConfusion this
          omega
        · rw [if_neg hhit]
          rw [hrest]
          apply ih (i + 1) (cnt + 1) (by omega) (by omega) (by omega)
          · intro j h1 h2
            by_cases hj : j < i
            · exact hblanks j (by omega) hj
            · have : j = i := by omega
              subst this
              exact (blankAt_of_get hget).trans hb
          · omega
          · intro r' h1 h2
            exact hleast r' (by omega) h2
      · rw [if_neg hb]
        rw [hrest]
        have hnotrun : ∀ r', i - cnt ≤ r' → r' ≤ i → runAt grid thr r' = false := by
          intro r' h1 h2
          apply Bool.eq_false_iff.mpr
          intro hr'
          have hbl := (List.all_eq_true.mp hr') (i - r') (List.mem_range.mpr (by omega))
          simp only [decide_eq_true_eq] at hbl
          have : r' + (i - r') = i := by omega
          rw [this] at hbl
          rw [blankAt_of_get hget] at hbl
          exact hb hbl
        have hge' : i + 1 ≤ rstar := by
          rcases Nat.lt_or_ge i rstar with h | h
          · omega
          · exfalso
            have := hnotrun rstar hge h
            rw [hrun] at this
            exact Bool.noConfusion this
        apply ih (i + 1) 0 (by omega) (by omega) (by omega)
        · intro j h1 h2
          omega
        · omega
        · intro r' h1 h2
          exact hleast r' (by omega) h2

theorem findEndLoop_none (grid : List (List Val)) (thr : ℕ) (hthr : 0 < thr) :
    ∀ (fuel i cnt : ℕ), grid.length - i ≤ fuel → cnt < thr → cnt ≤ i →
      (∀ j, i - cnt ≤ j → j < i → blankAt grid j = true) →
      (∀ r', i - cnt ≤ r' → runAt grid thr r' = false) →
      findEndLoop grid.length thr (grid.drop i) i cnt = grid.length - 1 := by
  intro fuel
  induction fuel with
  | zero =>
    intro i cnt hfuel hcnt hci hblanks hnone
    have : grid.length ≤ i := by omega
    have hdrop : grid.drop i = [] := List.drop_eq_nil_of_le this
    rw [hdrop]
    rfl
  | succ fuel ih =>
    intro i cnt hfuel hcnt hci hblanks hnone
    cases hdrop : grid.drop i with
    | nil => rfl
    | cons row rest =>
      obtain ⟨hget, hrest, hilt⟩ := drop_cons_get hdrop
      simp only [findEndLoop]
      by_cases hb : isBlankRow row = true
      · rw [if_pos hb]
        by_cases hhit : thr ≤ cnt + 1
        · exfalso
          have hthr' : thr = cnt + 1 := by omega
          have hstart : runAt grid thr (i - cnt) = true :=
            runAt_start hthr' hci hblanks ((blankAt_of_get hget).trans hb)
          have := hnone (i - cnt) (le_refl _)
          rw [hstart] at this
          exact Bool.noConfusion this
        · rw [if_neg hhit, hrest]
          apply ih (i + 1) (cnt + 1) (by omega) (by omega) (by omega)
          · intro j h1 h2
            by_cases hj : j < i
            · exact hblanks j (by omega) hj
            · have : j = i := by omega
              subst this
              exact (blankAt_of_get hget).trans hb
          · intro r' h1
            exact hnone r' (by omega)
      · rw [if_neg hb, hrest]
        apply ih (i + 1) 0 (by omega) (by omega) (by omega)
        · intro j h1 h2
          omega
        · intro r' h1
          exact hnone r' (by omega)

/-- The grid of the claim's concrete scenario: the heading
`"一、逾期还款业务"` at row 5, five table rows at 6-10 (row 6 being the
table's header row), and a run of three blank rows at 11-13. -/
def scenGrid : List (List Val) :=
  [[Val.str "表格"], [Val.str "x"], [Val.str "x"], [Val.str "x"], [Val.str "x"],
   [Val.str "一、逾期还款业务"],
   [Val.str "合同号"],
   [Val.str "C1"], [Val.str "C2"], [Val.str "C3"], [Val.str "C4"],
   [Val.blank], [Val.blank], [Val.blank]]

/-- Claim C8: for the last table, the end row is the row immediately
preceding the first run of ≥ 3 consecutive fully-blank rows scanning
forward from the header row, and the last grid row when no such run
exists; and in the concrete scenario (heading at row 5, table rows 6-10,
blanks 11-13) the heading is found at row 5, the table span is rows 6-10
(`iloc[6:11]`), and its first row — the header row — is row 6. -/
theorem find_table_end_boundary (grid : List (List Val)) (s : ℕ) :
    (∀ r, s + 1 ≤ r → runAt grid 3 r = true →
      (∀ r', s + 1 ≤ r' → r' < r → runAt grid 3 r' = false) →
      find_table_end grid s = r - 1) ∧
    ((∀ r, s + 1 ≤ r → runAt grid 3 r = false) →
      find_table_end grid s = grid.length - 1) ∧
    findOverdueHeading scenGrid = some 5 ∧
    find_table_end scenGrid 6 = 10 ∧
    (scenGrid.drop 6).take 5
      = [[Val.str "合同号"], [Val.str "C1"], [Val.str "C2"], [Val.str "C3"], [Val.str "C4"]] := by
  refine ⟨?_, ?_, by decide, by decide, by decide⟩
  · intro r hr hrun hleast
    unfold find_table_end
    apply findEndLoop_found grid 3 (by omega) r hrun grid.length (s + 1) 0 (by omega)
      (by omega) (by omega)
    · intro j h1 h2
      omega
    · simpa using hr
    · intro r' h1 h2
      exact hleast r' (by simpa using h1) h2
  · intro hnone
    unfold find_table_end
    apply findEndLoop_none grid 3 (by omega) grid.length (s + 1) 0 (by omega)
      (by omega) (by omega)
    · intro j h1 h2
      omega
    · intro r' h1
      exact hnone r' (by simpa using h1)

/-- Witness for `find_table_end_boundary`: on the scenario grid the first
blank run starts at row 11, and the computed end row is 10. -/
theorem find_table_end_boundary_wit :
    runAt scenGrid 3 11 = true ∧ find_table_end scenGrid 6 = 11 - 1 :=
  ⟨by decide,
   (find_table_end_boundary scenGrid 6).1 11 (by decide) (by decide)
     (fun r' h1 h2 => by interval_cases r' <;> decide)⟩

-- ### the dynamic-column stage of `process_overdue_payment`

/-- Index of the first column with the given label; `none` when the label
is absent.  (`df[c]` reads the leftmost column under a duplicate label in
this embedding.) -/
def colIdx : List String → String → Option ℕ
  | [], _ => none
  | c' :: cs, c => if c' = c then some 0 else (colIdx cs c).map (· + 1)

/-- A DataFrame at this stage: the column labels and the body rows, each
row aligned with the labels. -/
structure DF where
  cols : List String
  rows : List (List Val)
deriving DecidableEq

/-- The cell of `row` in column `c` (a missing column or a short row
reads as `NaN`). -/
def cellOf (cols : List String) (row : List Val) (c : String) : Val :=
  match colIdx cols c with
  | some i => row.getD i Val.blank
  | none => Val.blank

/-- Overwrite the cell of `row` in column `c`. -/
def setCell (cols : List String) (row : List Val) (c : String) (v : Val) : List Val :=
  match colIdx cols c with
  | some i => row.set i v
  | none => row

/-- Append a new column holding the same value in every row
(`df[c] = scalar` for a fresh label). -/
def addCol (df : DF) (c : String) (v : Val) : DF :=
  { cols := df.cols ++ [c], rows := df.rows.map (fun row => row ++ [v]) }

/-- First-match lookup in an association list (a Python `dict` read). -/
def lookupStr {α : Type} : List (String × α) → String → Option α
  | [], _ => none
  | (k, v) :: rest, c => if k = c then some v else lookupStr rest c

/-- Line 282. -/
def possible_contract_columns : List String :=
  ["合同号", "合同", "合同编号", "合同序号", "编号"]

/-- Lines 281-287: the first candidate contract-number label present in
the header. -/
def findContractColumn (df : DF) : Option String :=
  possible_contract_columns.find? (fun c => decide (c ∈ df.cols))

/-- `astype(str).str.contains('合计|小计', na=False)` on one cell. -/
def containsTotalsLabel (v : Val) : Bool :=
  strContains (valToStr v) "合计" || strContains (valToStr v) "小计"

/-- Lines 289-303: subtotal-row filtering.  With a contract column the
rows whose contract cell is missing (`notna()` is false) are dropped;
otherwise rows whose `经营单位` (or first) column mentions `合计`/`小计`
are dropped.  An empty header makes `df.columns[0]` raise, caught by the
surrounding `except` (hence `Except.error`). -/
def filterTotals (df : DF) : Except Unit DF :=
  match findContractColumn df with
  | some c =>
    .ok { df with rows := df.rows.filter (fun row => decide (cellOf df.cols row c ≠ Val.blank)) }
  | none =>
    if "经营单位" ∈ df.cols then
      .ok { df with rows :=
        df.rows.filter (fun row => !containsTotalsLabel (cellOf df.cols row "经营单位")) }
    else
      match df.cols.head? with
      | some c0 =>
        .ok { df with rows :=
          df.rows.filter (fun row => !containsTotalsLabel (cellOf df.cols row c0)) }
      | none => .error ()

/-- Lines 305-312, per row: when the `二级部门` cell (as a string)
contains `启宏实业`, the `客户` cell is overwritten with the literal
`'启宏实业'`. -/
def qihongRow (cols : List String) (row : List Val) : List Val :=
  if strContains (valToStr (cellOf cols row "二级部门")) "启宏实业" then
    setCell cols row "客户" (Val.str "启宏实业")
  else row

/-- Lines 305-312: the rewrite applies only when both columns exist. -/
def qihongRewrite (df : DF) : DF :=
  if "二级部门" ∈ df.cols ∧ "客户" ∈ df.cols then
    { df with rows := df.rows.map (qihongRow df.cols) }
  else df

/-- Line 315. -/
def required_columns : List String :=
  ["逾期事由", "金额/万元", "板群", "经营单位", "客户", "产品"]

/-- Lines 320-327: the per-column alias lists, in dictionary insertion
order. -/
def column_maps : List (String × List String) :=
  [("逾期事由", ["逾期原因", "事由", "原因"]),
   ("金额/万元", ["金额", "金额(万元)", "金额（万元）", "逾期金额", "逾期金额/万元"]),
   ("板群", ["分板群", "业务板群"]),
   ("经营单位", ["经营单位名称", "单位", "部门"]),
   ("客户", ["客户名称", "客户名", "购货单位"]),
   ("产品", ["产品名称", "品名", "货物"])]

/-- The spec's alias list for a canonical column. -/
def aliasesOf (c : String) : List String := (lookupStr column_maps c).getD []

/-- Lines 329-337: for each required column absent from the header, the
first alias present in the header is mapped to it. -/
def buildColumnMapping (cols : List String) : List (String × String) :=
  column_maps.filterMap (fun rc =>
    if rc.1 ∈ cols then none
    else (rc.2.find? (fun a => decide (a ∈ cols))).map (fun alt => (alt, rc.1)))

/-- `df.rename(columns=m)` on one label. -/
def renameLabel (m : List (String × String)) (c : String) : String :=
  (lookupStr m c).getD c

/-- `df.rename(columns=m)`: every occurrence of a mapped label is
renamed; cells stay in place. -/
def renameDF (df : DF) (m : List (String × String)) : DF :=
  { df with cols := df.cols.map (renameLabel m) }

/-- Lines 316-342: when any required column is missing, build the alias
mapping and rename the header; otherwise leave the table alone. -/
def resolveRename (df : DF) : DF :=
  if required_columns.any (fun c => !decide (c ∈ df.cols)) then
    renameDF df (buildColumnMapping df.cols)
  else df

/-- Lines 314-348: rename via the alias mapping when needed; if a
required column is still missing afterwards the resolution fails
(`return False`, modelled as `none`). -/
def resolveRequired (df : DF) : Option DF :=
  if required_columns.all (fun c => decide (c ∈ (resolveRename df).cols)) then
    some (resolveRename df)
  else none

/-- Lines 354-355: the control-cargo reason codes. -/
def isControlCargo (cols : List String) (row : List Val) : Bool :=
  decide (cellOf cols row "逾期事由" = Val.str "控货逾期未收款")
    || decide (cellOf cols row "逾期事由" = Val.str "已出运未收汇（非OA）")

/-- Lines 350-361: add `控货类业务逾期金额` and `授信类业务逾期金额`,
initialised to 0.0 and overwritten from `金额/万元` on the matching
mask. -/
def addDerived (df : DF) : DF :=
  { cols := df.cols ++ ["控货类业务逾期金额", "授信类业务逾期金额"],
    rows := df.rows.map (fun row =>
      if isControlCargo df.cols row then row ++ [cellOf df.cols row "金额/万元", Val.num 0]
      else row ++ [Val.num 0, cellOf df.cols row "金额/万元"]) }

/-- Line 368. -/
def optional_columns : List String := ["本周还款计划", "集团在手(万元)", "集团占用(万元)"]

/-- Lines 367-371: a missing optional column is created with the empty
string in every row. -/
def addOptionalDefaults (df : DF) : DF :=
  optional_columns.foldl (fun d c => if c ∈ d.cols then d else addCol d c (Val.str "")) df

/-- Lines 373-374 plus the groupby input: select `columns_to_keep` into
the fixed-shape simplified row. -/
def toSimpRow (cols : List String) (row : List Val) : SimpRow :=
  { «板群» := cellOf cols row "板群"
    «经营单位» := cellOf cols row "经营单位"
    «客户» := cellOf cols row "客户"
    «产品» := cellOf cols row "产品"
    «金额/万元» := cellOf cols row "金额/万元"
    «控货类业务逾期金额» := cellOf cols row "控货类业务逾期金额"
    «授信类业务逾期金额» := cellOf cols row "授信类业务逾期金额"
    «本周还款计划» := cellOf cols row "本周还款计划"
    «集团在手(万元)» := cellOf cols row "集团在手(万元)"
    «集团占用(万元)» := cellOf cols row "集团占用(万元)" }

def toSimpRows (df : DF) : List SimpRow := df.rows.map (toSimpRow df.cols)

/-- The body of the `try` block of `process_overdue_payment` after the
table-existence check: filter subtotal rows, apply the 启宏实业 rewrite,
resolve required columns (a failed resolution is the explicit
`return False`, folded into `Except.error` here), derive the two amount
columns, default the optional columns, aggregate and bucketize. -/
def processBody (table : DF) (threshold : ℚ) : Except Unit (List SimpRow) :=
  match filterTotals table with
  | .error e => .error e
  | .ok df1 =>
    match resolveRequired (qihongRewrite df1) with
    | none => .error ()
    | some df3 =>
      match aggregate (toSimpRows (addOptionalDefaults (addDerived df3))) with
      | .error e => .error e
      | .ok grouped => bucketize grouped threshold

/-- The mutable state of an `ExcelProcessor` (its four table
dictionaries, as insertion-ordered association lists). -/
structure PState where
  tables : List (String × DF)
  processed_tables : List (String × List SimpRow)
  deposit_tables : List (String × DF)
  future_tables : List (String × DF)
deriving DecidableEq

/-- Python `dict` assignment `m[k] = v`: replace the value wholesale if
the key exists, else append. -/
def dictSet {α : Type} : List (String × α) → String → α → List (String × α)
  | [], k, v => [(k, v)]
  | (k', v') :: rest, k, v =>
    if k' = k then (k, v) :: rest else (k', v') :: dictSet rest k v

def overdue_table_name : String := "一、逾期还款业务"

/-- `ExcelProcessor.process_overdue_payment` (src lines 264-443) at the
state level: look the raw table up, fail on a missing or empty table, run
the processing body on a copy, and on success store the result under the
table name in `processed_tables`.  Every failure — a raised exception or
the explicit `return False` — leaves the state untouched. -/
def process_overdue_payment (st : PState) (threshold : ℚ) : Bool × PState :=
  match lookupStr st.tables overdue_table_name with
  | none => (false, st)
  | some table =>
    if table.rows.isEmpty then (false, st)
    else
      match processBody table threshold with
      | .error _ => (false, st)
      | .ok final =>
        (true,
          { st with processed_tables := dictSet st.processed_tables overdue_table_name final })

-- ### Claim C6: row filtering by the contract-number column

/-- Claim C6 (amended): when a contract-number column is present, the
filter retains exactly the rows whose contract cell is non-missing
(`notna()`): every retained row has a non-missing key and every row with
a non-missing key — including an empty or whitespace-only string — is
retained.  (The claim's stronger "blank or missing" reading fails: see
the counterexample.) -/
theorem filterTotals_contract_spec (df : DF) (c : String)
    (hc : findContractColumn df = some c) :
    filterTotals df
      = .ok { df with rows :=
          df.rows.filter (fun row => decide (cellOf df.cols row c ≠ Val.blank)) } ∧
    (∀ df', filterTotals df = .ok df' →
      (∀ row ∈ df'.rows, cellOf df.cols row c ≠ Val.blank) ∧
      (∀ row ∈ df.rows, cellOf df.cols row c ≠ Val.blank → row ∈ df'.rows)) := by
  have hmain : filterTotals df
      = .ok { df with rows :=
          df.rows.filter (fun row => decide (cellOf df.cols row c ≠ Val.blank)) } := by
    unfold filterTotals
    rw [hc]
  refine ⟨hmain, ?_⟩
  intro df' h
  rw [hmain] at h
  have h' := Except.ok.inj h
  subst h'
  constructor
  · intro row hrow
    have := List.mem_filter.mp hrow
    simpa using this.2
  · intro row hrow hne
    exact List.mem_filter.mpr ⟨hrow, by simpa using hne⟩

/-- The one-column, one-row table whose contract cell is the whitespace
string `" "`. -/
def contractCexDF : DF := { cols := ["合同号"], rows := [[Val.str " "]] }

/-- Claim C6, counterexample: a row whose contract-number cell holds the
whitespace string `" "` — blank in the claim's sense, since it strips to
the empty string — is *retained*: `notna()` drops only missing values. -/
theorem filterTotals_blank_string_cex :
    findContractColumn contractCexDF = some "合同号" ∧
    filterTotals contractCexDF = .ok contractCexDF ∧
    pyStrip (valToStr (Val.str " ")) = "" ∧
    [Val.str " "] ∈ contractCexDF.rows := by
  refine ⟨by decide, by decide, rfl, by decide⟩

/-- Witness for `filterTotals_contract_spec` at a concrete table: the
missing-key row is dropped, the non-missing one retained. -/
theorem filterTotals_contract_spec_wit :
    filterTotals { cols := ["合同号"], rows := [[Val.blank], [Val.str "C1"]] }
      = .ok { cols := ["合同号"], rows := [[Val.str "C1"]] } ∧
    [Val.str "C1"] ∈ ({ cols := ["合同号"], rows := [[Val.str "C1"]] } : DF).rows :=
  ⟨(filterTotals_contract_spec { cols := ["合同号"], rows := [[Val.blank], [Val.str "C1"]] }
      "合同号" (by decide)).1,
   ((filterTotals_contract_spec { cols := ["合同号"], rows := [[Val.blank], [Val.str "C1"]] }
      "合同号" (by decide)).2 _ (by decide)).2 _ (by decide) (by decide)⟩

-- ### Claim C9: the 启宏实业 customer rewrite

theorem colIdx_lt_length : ∀ (cols : List String) (c : String) (i : ℕ),
    colIdx cols c = some i → i < cols.length := by
  intro cols
  induction cols with
  | nil => intro c i h; exact Option.noConfusion h
  | cons c' cs ih =>
    intro c i h
    rw [colIdx] at h
    by_cases he : c' = c
    · rw [if_pos he] at h
      cases h
      simp
    · rw [if_neg he] at h
      cases hx : colIdx cs c with
      | none => rw [hx] at h; exact Option.noConfusion h
      | some j =>
        rw [hx] at h
        have h' := Option.some.inj h
        have := ih c j hx
        simp [← h']
        omega

theorem colIdx_isSome_of_mem : ∀ (cols : List String) (c : String),
    c ∈ cols → (colIdx cols c).isSome = true := by
  intro cols
  induction cols with
  | nil => intro c h; exact absurd h (List.not_mem_nil _)
  | cons c' cs ih =>
    intro c h
    rw [colIdx]
    by_cases he : c' = c
    · rw [if_pos he]; rfl
    · rw [if_neg he]
      rcases List.mem_cons.mp h with rfl | h'
      · exact absurd rfl he
      · cases hx : colIdx cs c with
        | none => exact absurd (ih c h') (by simp [hx])
        | some j => rfl

theorem colIdx_get : ∀ (cols : List String) (c : String) (i : ℕ),
    colIdx cols c = some i → cols.getD i "" = c := by
  intro cols
  induction cols with
  | nil => intro c i h; exact Option.noConfusion h
  | cons c' cs ih =>
    intro c i h
    rw [colIdx] at h
    by_cases he : c' = c
    · rw [if_pos he] at h
      cases h
      exact he
    · rw [if_neg he] at h
      cases hx : colIdx cs c with
      | none => rw [hx] at h; exact Option.noConfusion h
      | some j =>
        rw [hx] at h
        have h' := Option.some.inj h
        subst h'
        simpa using ih c j hx

theorem getD_set_self : ∀ (l : List Val) (i : ℕ) (v : Val), i < l.length →
    (l.set i v).getD i Val.blank = v := by
  intro l
  induction l with
  | nil => intro i v h; simp at h
  | cons a as ih =>
    intro i v h
    cases i with
    | zero => rfl
    | succ j =>
      simp only [List.set_cons_succ, List.getD_cons_succ]
      exact ih j v (by simpa using h)

theorem getD_set_ne : ∀ (l : List Val) (i j : ℕ) (v : Val), i ≠ j →
    (l.set i v).getD j Val.blank = l.getD j Val.blank := by
  intro l
  induction l with
  | nil => intro i j v h; simp
  | cons a as ih =>
    intro i j v h
    cases i with
    | zero =>
      cases j with
      | zero => exact absurd rfl h
      | succ j' => rfl
    | succ i' =>
      cases j with
      | zero => rfl
      | succ j' =>
        simp only [List.set_cons_succ, List.getD_cons_succ]
        exact ih i' j' v (by omega)

theorem cellOf_setCell_self {cols : List String} {row : List Val} {c : String} {v : Val}
    (hc : c ∈ cols) (hwf : row.length = cols.length) :
    cellOf cols (setCell cols row c v) c = v := by
  unfold cellOf setCell
  cases hx : colIdx cols c with
  | none => exact absurd (colIdx_isSome_of_mem cols c hc) (by simp [hx])
  | some i =>
    have := colIdx_lt_length cols c i hx
    exact getD_set_self row i v (by omega)

theorem cellOf_setCell_ne {cols : List String} {row : List Val} {c c' : String} {v : Val}
    (hne : c' ≠ c) :
    cellOf cols (setCell cols row c v) c' = cellOf cols row c' := by
  unfold cellOf setCell
  cases hx : colIdx cols c with
  | none => rfl
  | some i =>
    cases hy : colIdx cols c' with
    | none => rfl
    | some j =>
      have hij : i ≠ j := by
        intro hij
        subst hij
        exact hne ((colIdx_get cols c' i hy).symm.trans (colIdx_get cols c i hx))
      exact getD_set_ne row i j v hij

/-- Claim C9: in the overdue-repayment table (both `二级部门` and `客户`
present), before aggregation every row whose `二级部门` value contains
`启宏实业` has its `客户` value overwritten with the literal `'启宏实业'`
(other columns untouched), and every other row is left entirely
unchanged — in particular it keeps its original `客户` value. -/
theorem qihong_customer_rewrite (df : DF)
    (hd : "二级部门" ∈ df.cols) (hk : "客户" ∈ df.cols) :
    (qihongRewrite df).cols = df.cols ∧
    (qihongRewrite df).rows = df.rows.map (qihongRow df.cols) ∧
    (∀ row, row.length = df.cols.length →
      (strContains (valToStr (cellOf df.cols row "二级部门")) "启宏实业" = true →
        cellOf df.cols (qihongRow df.cols row) "客户" = Val.str "启宏实业" ∧
        (∀ c, c ≠ "客户" →
          cellOf df.cols (qihongRow df.cols row) c = cellOf df.cols row c)) ∧
      (strContains (valToStr (cellOf df.cols row "二级部门")) "启宏实业" = false →
        qihongRow df.cols row = row)) := by
  have hcond : ("二级部门" ∈ df.cols ∧ "客户" ∈ df.cols) := ⟨hd, hk⟩
  refine ⟨?_, ?_, ?_⟩
  · unfold qihongRewrite
    rw [if_pos hcond]
  · unfold qihongRewrite
    rw [if_pos hcond]
  · intro row hwf
    constructor
    · intro hmatch
      unfold qihongRow
      rw [if_pos hmatch]
      exact ⟨cellOf_setCell_self hk (hwf.trans rfl), fun c hc => cellOf_setCell_ne hc⟩
    · intro hmatch
      unfold qihongRow
      rw [if_neg (by simp [hmatch])]

/-- The concrete table of the C9 witness. -/
def qihongDF : DF :=
  { cols := ["二级部门", "客户"], rows := [[Val.str "启宏实业部", Val.str "X"]] }

/-- Witness for `qihong_customer_rewrite`: a row whose `二级部门` is
`"启宏实业部"` gets its customer overwritten. -/
theorem qihong_customer_rewrite_wit :
    cellOf qihongDF.cols (qihongRow qihongDF.cols [Val.str "启宏实业部", Val.str "X"]) "客户"
      = Val.str "启宏实业" :=
  (((qihong_customer_rewrite qihongDF (by decide) (by decide)).2.2
    [Val.str "启宏实业部", Val.str "X"] (by decide)).1 (by decide)).1

-- ### Claim C10: raw tables are never mutated

theorem lookupStr_dictSet_self {α : Type} :
    ∀ (m : List (String × α)) (k : String) (v : α),
      lookupStr (dictSet m k v) k = some v := by
  intro m
  induction m with
  | nil => intro k v; simp [dictSet, lookupStr]
  | cons p rest ih =>
    intro k v
    rw [dictSet]
    by_cases h : p.1 = k
    · rw [if_pos h]
      simp [lookupStr]
    · rw [if_neg h]
      rw [lookupStr]
      rw [if_neg h]
      exact ih k v

theorem lookupStr_dictSet_ne {α : Type} :
    ∀ (m : List (String × α)) (k : String) (v : α) (k' : String), k ≠ k' →
      lookupStr (dictSet m k v) k' = lookupStr m k' := by
  intro m
  induction m with
  | nil => intro k v k' h; simp [dictSet, lookupStr, h]
  | cons p rest ih =>
    intro k v k' h
    rw [dictSet]
    by_cases hp : p.1 = k
    · rw [if_pos hp]
      rw [lookupStr, lookupStr, if_neg h, if_neg (show ¬ p.1 = k' by rw [hp]; exact h)]
    · rw [if_neg hp]
      rw [lookupStr, lookupStr]
      by_cases hk' : p.1 = k'
      · rw [if_pos hk', if_pos hk']
      · rw [if_neg hk', if_neg hk']
        exact ih k v k' h

/-- Claim C10: `process_overdue_payment` works on a copy of the stored
raw table: whatever it returns, `tables`, `deposit_tables` and
`future_tables` are unchanged; on failure `processed_tables` is unchanged
too, and on success the only write is `processed_tables[一、逾期还款业务]`,
whose entry is replaced wholesale (later lookups of that name see exactly
the new value, other entries are untouched). -/
theorem process_overdue_payment_frame (st : PState) (t : ℚ) :
    (process_overdue_payment st t).2.tables = st.tables ∧
    (process_overdue_payment st t).2.deposit_tables = st.deposit_tables ∧
    (process_overdue_payment st t).2.future_tables = st.future_tables ∧
    ((process_overdue_payment st t).1 = false →
      (process_overdue_payment st t).2.processed_tables = st.processed_tables) ∧
    ((process_overdue_payment st t).1 = true →
      ∃ final,
        (process_overdue_payment st t).2.processed_tables
          = dictSet st.processed_tables overdue_table_name final ∧
        lookupStr (process_overdue_payment st t).2.processed_tables overdue_table_name
          = some final ∧
        (∀ k, overdue_table_name ≠ k →
          lookupStr (process_overdue_payment st t).2.processed_tables k
            = lookupStr st.processed_tables k)) := by
  unfold process_overdue_payment
  split
  · exact ⟨rfl, rfl, rfl, fun _ => rfl, fun h => absurd h (by simp)⟩
  · split
    · exact ⟨rfl, rfl, rfl, fun _ => rfl, fun h => absurd h (by simp)⟩
    · split
      · exact ⟨rfl, rfl, rfl, fun _ => rfl, fun h => absurd h (by simp)⟩
      · refine ⟨rfl, rfl, rfl, fun h => absurd h (by simp), fun _ => ⟨_, rfl, ?_, ?_⟩⟩
        · exact lookupStr_dictSet_self _ _ _
        · intro k hk
          exact lookupStr_dictSet_ne _ _ _ _ hk

/-- The raw table of the C10 witness: one valid data row with all
required columns present. -/
def witTableDF : DF :=
  { cols := ["合同号", "板群", "经营单位", "客户", "产品", "逾期事由", "金额/万元"],
    rows := [[Val.str "C1", Val.str "G", Val.str "U", Val.str "A", Val.str "P",
              Val.str "控货逾期未收款", Val.num 5]] }

/-- The processor state of the C10 witness. -/
def witState : PState :=
  { tables := [(overdue_table_name, witTableDF)], processed_tables := [],
    deposit_tables := [], future_tables := [] }

unseal Rat.add Rat.sub Rat.mul in
/-- Witness for `process_overdue_payment_frame` on a concrete state: the
run succeeds and the three raw-table dictionaries are unchanged. -/
theorem process_overdue_payment_frame_wit :
    (process_overdue_payment witState 1).2.tables = witState.tables ∧
    (process_overdue_payment witState 1).2.deposit_tables = witState.deposit_tables ∧
    (process_overdue_payment witState 1).2.future_tables = witState.future_tables ∧
    (process_overdue_payment witState 1).1 = true :=
  ⟨(process_overdue_payment_frame witState 1).1,
   (process_overdue_payment_frame witState 1).2.1,
   (process_overdue_payment_frame witState 1).2.2.1,
   by decide⟩

-- ### Claim C7: column resolution

theorem lookupStr_eq_none_of {α : Type} :
    ∀ (m : List (String × α)) (c : String), (∀ p ∈ m, p.1 ≠ c) → lookupStr m c = none := by
  intro m
  induction m with
  | nil => intro c _; rfl
  | cons p rest ih =>
    intro c h
    rw [lookupStr, if_neg (h p (List.mem_cons_self _ _))]
    exact ih c (fun q hq => h q (List.mem_cons_of_mem _ hq))

theorem lookupStr_eq_some_of {α : Type} :
    ∀ (m : List (String × α)) (c : String) (v : α),
      (c, v) ∈ m → (∀ p ∈ m, p.1 = c → p.2 = v) → lookupStr m c = some v := by
  intro m
  induction m with
  | nil => intro c v h _; exact absurd h (List.not_mem_nil _)
  | cons p rest ih =>
    intro c v hmem huniq
    rw [lookupStr]
    by_cases hp : p.1 = c
    · rw [if_pos hp]
      rw [huniq p (List.mem_cons_self _ _) hp]
    · rw [if_neg hp]
      rcases List.mem_cons.mp hmem with rfl | hmem'
      · exact absurd rfl hp
      · exact ih c v hmem' (fun q hq => huniq q (List.mem_cons_of_mem _ hq))

theorem lookupStr_mem {α : Type} :
    ∀ (m : List (String × α)) (c : String) (v : α),
      lookupStr m c = some v → (c, v) ∈ m := by
  intro m
  induction m with
  | nil => intro c v h; exact Option.noConfusion h
  | cons p rest ih =>
    intro c v h
    rw [lookupStr] at h
    by_cases hp : p.1 = c
    · rw [if_pos hp] at h
      have hv := Option.some.inj h
      have : p = (c, v) := by
        cases p
        simp only [Prod.mk.injEq]
        exact ⟨hp, hv⟩
      exact this ▸ List.mem_cons_self _ _
    · rw [if_neg hp] at h
      exact List.mem_cons_of_mem _ (ih c v h)

theorem mem_buildColumnMapping {cols : List String} {p : String × String} :
    p ∈ buildColumnMapping cols ↔
      ∃ rc ∈ column_maps, rc.1 ∉ cols
        ∧ rc.2.find? (fun a => decide (a ∈ cols)) = some p.1 ∧ p.2 = rc.1 := by
  unfold buildColumnMapping
  rw [List.mem_filterMap]
  constructor
  · rintro ⟨rc, hrc, heq⟩
    by_cases hin : rc.1 ∈ cols
    · rw [if_pos hin] at heq
      exact Option.noConfusion heq
    · rw [if_neg hin] at heq
      rcases Option.map_eq_some'.mp heq with ⟨alt, hfind, hp⟩
      cases hp
      exact ⟨rc, hrc, hin, hfind, rfl⟩
  · rintro ⟨rc, hrc, hnotin, hfind, hp2⟩
    refine ⟨rc, hrc, ?_⟩
    rw [if_neg hnotin, hfind]
    show some (p.1, rc.1) = some p
    rw [← hp2]

theorem req_not_alias : ∀ c ∈ required_columns, ∀ rc ∈ column_maps, c ∉ rc.2 := by decide

theorem maps_lookup_self : ∀ rc ∈ column_maps, lookupStr column_maps rc.1 = some rc.2 := by
  decide

theorem maps_alias_unique :
    ∀ rc1 ∈ column_maps, ∀ rc2 ∈ column_maps, ∀ a ∈ rc1.2, a ∈ rc2.2 → rc1 = rc2 := by
  decide

theorem req_has_entry : ∀ c ∈ required_columns, (lookupStr column_maps c).isSome = true := by
  decide

theorem renameLabel_required (cols : List String) :
    ∀ c ∈ required_columns, renameLabel (buildColumnMapping cols) c = c := by
  intro c hc
  unfold renameLabel
  rw [lookupStr_eq_none_of]
  · rfl
  · intro p hp hpc
    rcases mem_buildColumnMapping.mp hp with ⟨rc, hrc, _, hfind, _⟩
    have hmem : p.1 ∈ rc.2 := List.mem_of_find?_eq_some hfind
    exact req_not_alias c hc rc hrc (hpc ▸ hmem)

theorem renameLabel_alias (cols : List String) :
    ∀ c ∈ required_columns, c ∉ cols →
      ∀ alt, (aliasesOf c).find? (fun a => decide (a ∈ cols)) = some alt →
        renameLabel (buildColumnMapping cols) alt = c := by
  intro c hc hnotin alt hfind
  obtain ⟨l, hl⟩ := Option.isSome_iff_exists.mp (req_has_entry c hc)
  have hentry : (c, l) ∈ column_maps := lookupStr_mem _ _ _ hl
  have hal : aliasesOf c = l := by
    unfold aliasesOf
    rw [hl]
    rfl
  have hfind' : l.find? (fun a => decide (a ∈ cols)) = some alt := hal ▸ hfind
  have hmem : (alt, c) ∈ buildColumnMapping cols :=
    mem_buildColumnMapping.mpr ⟨(c, l), hentry, hnotin, hfind', rfl⟩
  unfold renameLabel
  rw [lookupStr_eq_some_of _ _ c hmem ?uniq]
  · rfl
  case uniq =>
    intro p hp hpalt
    rcases mem_buildColumnMapping.mp hp with ⟨rc, hrc, _, hrcfind, hp2⟩
    have halt1 : p.1 ∈ rc.2 := List.mem_of_find?_eq_some hrcfind
    have halt2 : p.1 ∈ l := hpalt ▸ List.mem_of_find?_eq_some hfind'
    have hrceq : rc = (c, l) := maps_alias_unique rc hrc (c, l) hentry p.1 halt1 halt2
    rw [hp2, hrceq]

theorem mem_renamed_iff (cols : List String) :
    ∀ c ∈ required_columns,
      (c ∈ cols.map (renameLabel (buildColumnMapping cols)) ↔
        c ∈ cols ∨ (aliasesOf c).any (fun a => decide (a ∈ cols)) = true) := by
  intro c hc
  constructor
  · intro hmem
    rcases List.mem_map.mp hmem with ⟨x, hx, hren⟩
    unfold renameLabel at hren
    cases hlk : lookupStr (buildColumnMapping cols) x with
    | none =>
      rw [hlk] at hren
      exact Or.inl (hren ▸ hx)
    | some r =>
      rw [hlk] at hren
      have hr : r = c := hren
      subst hr
      have hmem2 : (x, r) ∈ buildColumnMapping cols := lookupStr_mem _ _ _ hlk
      rcases mem_buildColumnMapping.mp hmem2 with ⟨rc, hrc, _, hrcfind, hp2⟩
      have hp2' : r = rc.1 := hp2
      have hrcfind' : List.find? (fun a => decide (a ∈ cols)) rc.2 = some x := hrcfind
      right
      have hlk2 : lookupStr column_maps r = some rc.2 := by
        rw [hp2']
        exact maps_lookup_self rc hrc
      apply List.any_eq_true.mpr
      refine ⟨x, ?_, ?_⟩
      · unfold aliasesOf
        rw [hlk2]
        exact List.mem_of_find?_eq_some hrcfind'
      · have := List.find?_some hrcfind'
        simpa using this
  · rintro (hx | hany)
    · exact List.mem_map.mpr ⟨c, hx, renameLabel_required cols c hc⟩
    · by_cases hcin : c ∈ cols
      · exact List.mem_map.mpr ⟨c, hcin, renameLabel_required cols c hc⟩
      · have hfs : ((aliasesOf c).find? (fun a => decide (a ∈ cols))).isSome := by
          rw [List.find?_isSome]
          rcases List.any_eq_true.mp hany with ⟨a, ha, hpa⟩
          exact ⟨a, ha, hpa⟩
        obtain ⟨alt, halt⟩ := Option.isSome_iff_exists.mp hfs
        have haltin : alt ∈ cols := by simpa using List.find?_some halt
        exact List.mem_map.mpr ⟨alt, haltin, renameLabel_alias cols c hc hcin alt halt⟩

theorem mem_resolveRename (df : DF) :
    ∀ c ∈ required_columns,
      (c ∈ (resolveRename df).cols ↔
        c ∈ df.cols ∨ (aliasesOf c).any (fun a => decide (a ∈ df.cols)) = true) := by
  intro c hc
  unfold resolveRename
  by_cases hmiss : required_columns.any (fun c => !decide (c ∈ df.cols)) = true
  · rw [if_pos hmiss]
    exact mem_renamed_iff df.cols c hc
  · rw [if_neg hmiss]
    have hall : ∀ c' ∈ required_columns, c' ∈ df.cols := by
      intro c' hc'
      by_contra hno
      exact hmiss (List.any_eq_true.mpr ⟨c', hc', by simp [hno]⟩)
    exact ⟨fun _ => Or.inl (hall c hc), fun _ => hall c hc⟩

theorem resolveRequired_isSome_iff (df : DF) :
    (resolveRequired df).isSome = true ↔
      ∀ c ∈ required_columns,
        c ∈ df.cols ∨ (aliasesOf c).any (fun a => decide (a ∈ df.cols)) = true := by
  unfold resolveRequired
  by_cases hall : required_columns.all (fun c => decide (c ∈ (resolveRename df).cols)) = true
  · rw [if_pos hall]
    constructor
    · intro _ c hc
      exact (mem_resolveRename df c hc).mp
        (by simpa using List.all_eq_true.mp hall c hc)
    · intro _
      rfl
  · rw [if_neg hall]
    constructor
    · intro h
      exact absurd h (by simp)
    · intro hrhs
      exfalso
      apply hall
      apply List.all_eq_true.mpr
      intro c hc
      simpa using (mem_resolveRename df c hc).mpr (hrhs c hc)

theorem getD_append_len : ∀ (row : List Val) (v : Val),
    (row ++ [v]).getD row.length Val.blank = v := by
  intro row v
  induction row with
  | nil => rfl
  | cons a as ih => simpa using ih

theorem getD_append_lt : ∀ (row l : List Val) (i : ℕ), i < row.length →
    (row ++ l).getD i Val.blank = row.getD i Val.blank := by
  intro row
  induction row with
  | nil => intro l i h; simp at h
  | cons a as ih =>
    intro l i h
    cases i with
    | zero => rfl
    | succ j =>
      simp only [List.cons_append, List.getD_cons_succ]
      exact ih l j (by simpa using h)

theorem colIdx_append_left : ∀ (cols l : List String) (c : String), c ∈ cols →
    colIdx (cols ++ l) c = colIdx cols c := by
  intro cols
  induction cols with
  | nil => intro l c h; exact absurd h (List.not_mem_nil _)
  | cons c' cs ih =>
    intro l c h
    rw [List.cons_append, colIdx, colIdx]
    by_cases he : c' = c
    · rw [if_pos he, if_pos he]
    · rw [if_neg he, if_neg he]
      rcases List.mem_cons.mp h with rfl | h'
      · exact absurd rfl he
      · rw [ih l c h']

theorem colIdx_append_not : ∀ (cols l : List String) (c : String), c ∉ cols →
    colIdx (cols ++ l) c = (colIdx l c).map (· + cols.length) := by
  intro cols
  induction cols with
  | nil =>
    intro l c _
    cases hx : colIdx l c <;> simp [hx]
  | cons c' cs ih =>
    intro l c h
    have he : c' ≠ c := fun hh => h (hh ▸ List.mem_cons_self _ _)
    rw [List.cons_append, colIdx, if_neg he,
      ih l c (fun hh => h (List.mem_cons_of_mem _ hh))]
    cases hx : colIdx l c <;> simp <;> omega

theorem addCol_cell_new (d : DF) (c : String) (v : Val) (hc : c ∉ d.cols)
    (row : List Val) (hlen : row.length = d.cols.length) :
    cellOf (addCol d c v).cols (row ++ [v]) c = v := by
  show cellOf (d.cols ++ [c]) (row ++ [v]) c = v
  unfold cellOf
  have h1 : colIdx [c] c = some 0 := by rw [colIdx, if_pos rfl]
  rw [colIdx_append_not d.cols [c] c hc, h1]
  show (row ++ [v]).getD (0 + d.cols.length) Val.blank = v
  rw [Nat.zero_add, ← hlen]
  exact getD_append_len row v

theorem addCol_cell_old (d : DF) (c : String) (v : Val) (c' : String) (hc' : c' ∈ d.cols)
    (row : List Val) (hlen : row.length = d.cols.length) :
    cellOf (addCol d c v).cols (row ++ [v]) c' = cellOf d.cols row c' := by
  show cellOf (d.cols ++ [c]) (row ++ [v]) c' = cellOf d.cols row c'
  unfold cellOf
  rw [colIdx_append_left d.cols [c] c' hc']
  cases hx : colIdx d.cols c' with
  | none => rfl
  | some i =>
    have := colIdx_lt_length d.cols c' i hx
    exact getD_append_lt row [v] i (by omega)

theorem foldDefaults_wf : ∀ (cs : List String) (d : DF),
    (∀ row ∈ d.rows, row.length = d.cols.length) →
    ∀ row ∈ (cs.foldl (fun d c => if c ∈ d.cols then d else addCol d c (Val.str "")) d).rows,
      row.length
        = (cs.foldl (fun d c => if c ∈ d.cols then d else addCol d c (Val.str "")) d).cols.length := by
  intro cs
  induction cs with
  | nil => intro d h; exact h
  | cons c0 cs ih =>
    intro d h
    rw [List.foldl_cons]
    apply ih
    by_cases hc0 : c0 ∈ d.cols
    · rw [if_pos hc0]
      exact h
    · rw [if_neg hc0]
      intro row hrow
      rcases List.mem_map.mp hrow with ⟨r, hr, rfl⟩
      simp [addCol, h r hr]

theorem foldDefaults_preserves : ∀ (cs : List String) (d : DF),
    (∀ row ∈ d.rows, row.length = d.cols.length) →
    ∀ (c : String) (w : Val), c ∈ d.cols → (∀ row ∈ d.rows, cellOf d.cols row c = w) →
      c ∈ (cs.foldl (fun d c => if c ∈ d.cols then d else addCol d c (Val.str "")) d).cols ∧
      ∀ row ∈ (cs.foldl (fun d c => if c ∈ d.cols then d else addCol d c (Val.str "")) d).rows,
        cellOf (cs.foldl (fun d c => if c ∈ d.cols then d else addCol d c (Val.str "")) d).cols
          row c = w := by
  intro cs
  induction cs with
  | nil => intro d _ c w hc hcell; exact ⟨hc, hcell⟩
  | cons c0 cs ih =>
    intro d hwf c w hc hcell
    rw [List.foldl_cons]
    by_cases hc0 : c0 ∈ d.cols
    · rw [if_pos hc0]
      exact ih d hwf c w hc hcell
    · rw [if_neg hc0]
      apply ih (addCol d c0 (Val.str ""))
      · intro row hrow
        rcases List.mem_map.mp hrow with ⟨r, hr, rfl⟩
        simp [addCol, hwf r hr]
      · show c ∈ d.cols ++ [c0]
        exact List.mem_append_left _ hc
      · intro row hrow
        rcases List.mem_map.mp hrow with ⟨r, hr, rfl⟩
        rw [addCol_cell_old d c0 (Val.str "") c hc r (hwf r hr)]
        exact hcell r hr

theorem foldDefaults_new : ∀ (cs : List String) (d : DF),
    (∀ row ∈ d.rows, row.length = d.cols.length) →
    ∀ c ∈ cs, c ∉ d.cols →
      c ∈ (cs.foldl (fun d c => if c ∈ d.cols then d else addCol d c (Val.str "")) d).cols ∧
      ∀ row ∈ (cs.foldl (fun d c => if c ∈ d.cols then d else addCol d c (Val.str "")) d).rows,
        cellOf (cs.foldl (fun d c => if c ∈ d.cols then d else addCol d c (Val.str "")) d).cols
          row c = Val.str "" := by
  intro cs
  induction cs with
  | nil => intro d _ c hc; exact absurd hc (List.not_mem_nil _)
  | cons c0 cs ih =>
    intro d hwf c hc hnot
    rw [List.foldl_cons]
    by_cases hcc : c = c0
    · subst hcc
      rw [if_neg hnot]
      apply foldDefaults_preserves cs (addCol d c (Val.str ""))
      · intro row hrow
        rcases List.mem_map.mp hrow with ⟨r, hr, rfl⟩
        simp [addCol, hwf r hr]
      · show c ∈ d.cols ++ [c]
        exact List.mem_append_right _ (List.mem_cons_self _ _)
      · intro row hrow
        rcases List.mem_map.mp hrow with ⟨r, hr, rfl⟩
        exact addCol_cell_new d c (Val.str "") hnot r (hwf r hr)
    · have hcs : c ∈ cs := by
        rcases List.mem_cons.mp hc with rfl | h'
        · exact absurd rfl hcc
        · exact h'
      by_cases hc0 : c0 ∈ d.cols
      · rw [if_pos hc0]
        exact ih d hwf c hcs hnot
      · rw [if_neg hc0]
        apply ih (addCol d c0 (Val.str ""))
        · intro row hrow
          rcases List.mem_map.mp hrow with ⟨r, hr, rfl⟩
          simp [addCol, hwf r hr]
        · exact hcs
        · show c ∉ d.cols ++ [c0]
          intro hmem
          rcases List.mem_append.mp hmem with h' | h'
          · exact hnot h'
          · rcases List.mem_cons.mp h' with rfl | h''
            · exact hcc rfl
            · exact absurd h'' (List.not_mem_nil _)

/-- Claim C7: each required canonical column is resolved by exact header
match first — the alias rename never remaps a label that is itself a
canonical name — then by the first alias of the spec's alias list found
in the header, which the rename maps onto the canonical name; resolution
succeeds exactly when every required column has an exact or alias match,
and on failure `process_overdue_payment` returns `false` and stores no
processed table; an unresolved optional column is instead created
holding the empty-string default (all three optional columns are text
columns) in every row, and processing continues. -/
theorem column_resolution_spec (df : DF) :
    ((resolveRequired df).isSome = true ↔
      ∀ c ∈ required_columns,
        c ∈ df.cols ∨ (aliasesOf c).any (fun a => decide (a ∈ df.cols)) = true) ∧
    (∀ c ∈ required_columns, renameLabel (buildColumnMapping df.cols) c = c) ∧
    (∀ c ∈ required_columns, c ∉ df.cols →
      ∀ alt, (aliasesOf c).find? (fun a => decide (a ∈ df.cols)) = some alt →
        renameLabel (buildColumnMapping df.cols) alt = c) ∧
    (∀ (st : PState) (t : ℚ) (table : DF) (df1 : DF),
      lookupStr st.tables overdue_table_name = some table →
      table.rows.isEmpty = false →
      filterTotals table = .ok df1 →
      resolveRequired (qihongRewrite df1) = none →
      process_overdue_payment st t = (false, st)) ∧
    (∀ (d : DF), (∀ row ∈ d.rows, row.length = d.cols.length) →
      ∀ c ∈ optional_columns, c ∉ d.cols →
        c ∈ (addOptionalDefaults d).cols ∧
        ∀ row ∈ (addOptionalDefaults d).rows,
          cellOf (addOptionalDefaults d).cols row c = Val.str "") := by
  refine ⟨resolveRequired_isSome_iff df, renameLabel_required df.cols,
    renameLabel_alias df.cols, ?_, ?_⟩
  · intro st t table df1 hl hne hfil hres
    have hbody : processBody table t = .error () := by
      unfold processBody
      rw [hfil]
      show (match resolveRequired (qihongRewrite df1) with
        | none => Except.error ()
        | some df3 =>
          match aggregate (toSimpRows (addOptionalDefaults (addDerived df3))) with
          | .error e => .error e
          | .ok grouped => bucketize grouped t) = Except.error ()
      rw [hres]
    unfold process_overdue_payment
    rw [hl]
    show (if table.rows.isEmpty = true then (false, st)
      else match processBody table t with
        | .error _ => (false, st)
        | .ok final =>
          (true, { st with
            processed_tables := dictSet st.processed_tables overdue_table_name final }))
      = (false, st)
    rw [hne, if_neg (by simp), hbody]
  · intro d hwf c hc hnot
    exact foldDefaults_new optional_columns d hwf c hc hnot

/-- The header of the C7 witness: `逾期事由` and `金额/万元` are matched
through their aliases `逾期原因` and `金额`, the rest exactly. -/
def resolveWitDF : DF :=
  { cols := ["逾期原因", "金额", "板群", "经营单位", "客户", "产品"], rows := [] }

/-- Witness for `column_resolution_spec`: resolution succeeds on the
aliased header, and the alias `金额` is renamed to `金额/万元`. -/
theorem column_resolution_spec_wit :
    (resolveRequired resolveWitDF).isSome = true ∧
    renameLabel (buildColumnMapping resolveWitDF.cols) "金额" = "金额/万元" ∧
    renameLabel (buildColumnMapping resolveWitDF.cols) "板群" = "板群" :=
  ⟨(column_resolution_spec resolveWitDF).1.mpr (by decide),
   (column_resolution_spec resolveWitDF).2.2.1 "金额/万元" (by decide) (by decide) "金额"
     (by decide),
   (column_resolution_spec resolveWitDF).2.1 "板群" (by decide)⟩
